import Mathlib

/-!
Morse encoder (lab5_1/send.c) and Morse decoder (lab5_2/main/oneshot_read_main.c).

A shallow embedding of the two programs of the repository and a verification
of their specification.

Modelling conventions.

* C `char` values are `Char`; a C string is a `List Char` without its
  terminating NUL, and `cstr` reads the C string stored in a byte array.
* A C `int` is 32 bits wide. Its value is an `Int`, and every `+=` of the
  decoder goes through `int_add`, which wraps around in two's complement as
  the compiled program does when a counter passes `INT_MAX` (the C standard
  leaves signed overflow undefined). The counters grow by `SAMPLE_MS` per
  tick, so they wrap after 2^31 ms of a constant level.
* `morse_len`, the index into `morse_buf`, is a natural number, and
  `morse_buf` is a list of exactly 16 characters. The program never
  initialises `morse_buf`, so the initial state takes its bytes as a
  parameter. `cstr` stops at the first NUL or after the 16th byte; the
  decoder only reads the buffer when `morse_len > 0`, and in every state it
  can reach a NUL then follows the buffered symbols (`WellFormed`).
* `printf` output is the list of characters a tick emits.
* The LED and `delay` calls of the encoder are recorded as a trace of
  `(level, milliseconds)` pairs: one entry per `delay`, with the LED level at
  the time of the call.
-/

namespace Morse

/-! ## Decoder: constants (oneshot_read_main.c, lines 17-24) -/

def SAMPLE_MS : Int := 10
def UNIT_MS : Int := 200
def DOT_MAX : Int := UNIT_MS * 2
def LETTER_GAP_MIN : Int := UNIT_MS * 2
def LETTER_GAP_MAX : Int := UNIT_MS * 5
def WORD_GAP_MIN : Int := UNIT_MS * 5

/-- The smallest value of a 32-bit C `int`. -/
def INT_MIN : Int := -2147483648

/-- The largest value of a 32-bit C `int`. -/
def INT_MAX : Int := 2147483647

/-- The value a 32-bit `int` holds for the mathematical integer `x`:
two's-complement wrap-around into `[INT_MIN, INT_MAX]`. -/
def wrap_int (x : Int) : Int :=
  (x + 2147483648) % 4294967296 - 2147483648

/-- The C `int` sum `a + b` (as in `a += b`). -/
def int_add (a b : Int) : Int :=
  wrap_int (a + b)

/-- The NUL byte that terminates a C string. -/
def NUL : Char := Char.ofNat 0

/-- Size of `char morse_buf[16]`. -/
def MORSE_BUF_SIZE : Nat := 16

/-! ## Decoder: table and lookup (lines 28-54) -/

/-- The C type `morse_map_t` of the decoder: a code and its letter. -/
structure morse_map_t where
  morse : List Char
  letter : Char
deriving DecidableEq, Repr

/-- The `morse_table` of the decoder, in source order. -/
def morse_table : List morse_map_t := [
  ⟨['.', '-'], 'A'⟩, ⟨['-', '.', '.', '.'], 'B'⟩, ⟨['-', '.', '-', '.'], 'C'⟩, ⟨['-', '.', '.'], 'D'⟩,
  ⟨['.'], 'E'⟩, ⟨['.', '.', '-', '.'], 'F'⟩, ⟨['-', '-', '.'], 'G'⟩, ⟨['.', '.', '.', '.'], 'H'⟩,
  ⟨['.', '.'], 'I'⟩, ⟨['.', '-', '-', '-'], 'J'⟩, ⟨['-', '.', '-'], 'K'⟩, ⟨['.', '-', '.', '.'], 'L'⟩,
  ⟨['-', '-'], 'M'⟩, ⟨['-', '.'], 'N'⟩, ⟨['-', '-', '-'], 'O'⟩, ⟨['.', '-', '-', '.'], 'P'⟩,
  ⟨['-', '-', '.', '-'], 'Q'⟩, ⟨['.', '-', '.'], 'R'⟩, ⟨['.', '.', '.'], 'S'⟩, ⟨['-'], 'T'⟩,
  ⟨['.', '.', '-'], 'U'⟩, ⟨['.', '.', '.', '-'], 'V'⟩, ⟨['.', '-', '-'], 'W'⟩, ⟨['-', '.', '.', '-'], 'X'⟩,
  ⟨['-', '.', '-', '-'], 'Y'⟩, ⟨['-', '-', '.', '.'], 'Z'⟩,
  ⟨['-', '-', '-', '-', '-'], '0'⟩, ⟨['.', '-', '-', '-', '-'], '1'⟩, ⟨['.', '.', '-', '-', '-'], '2'⟩,
  ⟨['.', '.', '.', '-', '-'], '3'⟩, ⟨['.', '.', '.', '.', '-'], '4'⟩, ⟨['.', '.', '.', '.', '.'], '5'⟩,
  ⟨['-', '.', '.', '.', '.'], '6'⟩, ⟨['-', '-', '.', '.', '.'], '7'⟩, ⟨['-', '-', '-', '.', '.'], '8'⟩,
  ⟨['-', '-', '-', '-', '.'], '9'⟩]

/-- The loop of `morse_to_char` over the remaining table entries: the first
entry whose code `strcmp`s equal to `code` gives the result, and `'?'` is
returned when the entries are exhausted. -/
def morse_lookup (code : List Char) : List morse_map_t → Char
  | [] => '?'
  | e :: rest => if e.morse = code then e.letter else morse_lookup code rest

/-- The function `morse_to_char(code)`, on the C string `code`. -/
def morse_to_char (code : List Char) : Char :=
  morse_lookup code morse_table

/-! ## Decoder: state and one loop iteration (lines 97-176) -/

/-- The 16 bytes of `char morse_buf[16]`. -/
def Buf : Type := { l : List Char // l.length = MORSE_BUF_SIZE }

/-- A store `morse_buf[i] = c`; the decoder only stores at indices below 16. -/
def Buf.set (b : Buf) (i : Nat) (c : Char) : Buf :=
  ⟨b.val.set i c, by rw [List.length_set]; exact b.property⟩

/-- The C string that starts at `morse_buf[0]`: the bytes before the first
NUL. -/
def cstr (b : Buf) : List Char :=
  b.val.takeWhile (fun c => c != NUL)

/-- The local variables of `app_main` that make up the decoder state.
`state_duration_ms` and `gap_ms` are C `int`s: they start at 0 and are only
changed by an assignment of a constant or by `int_add`, so they hold values in
`[INT_MIN, INT_MAX]` in every state the decoder reaches (`run_int_range`).
`morse_len` is a C `int` that stays in `[0, 15]`. -/
structure DecoderState where
  prev_on : Bool
  state_duration_ms : Int
  gap_ms : Int
  morse_buf : Buf
  morse_len : Nat

/-- The state at loop entry (lines 97-102); `morse_buf` is not initialised
by the program, so its initial bytes `buf0` are arbitrary. -/
def init (buf0 : Buf) : DecoderState :=
  { prev_on := false, state_duration_ms := 0, gap_ms := 0,
    morse_buf := buf0, morse_len := 0 }

/-- Lines 124-127 and 130-133: append one symbol if there is room. -/
def push_symbol (s : DecoderState) (sym : Char) : DecoderState :=
  if s.morse_len < MORSE_BUF_SIZE - 1 then
    { s with morse_buf := (s.morse_buf.set s.morse_len sym).set (s.morse_len + 1) NUL,
             morse_len := s.morse_len + 1 }
  else s

/-- Lines 121-136: the on run just ended; classify it and reset `gap_ms`. -/
def falling_edge (s : DecoderState) : DecoderState × List Char :=
  let s1 := if s.state_duration_ms < DOT_MAX then push_symbol s '.' else push_symbol s '-'
  ({ s1 with gap_ms := 0 }, [])

/-- Lines 137-159: the off run just ended; classify the gap. -/
def rising_edge (s : DecoderState) : DecoderState × List Char :=
  if s.gap_ms ≥ LETTER_GAP_MIN ∧ s.gap_ms < LETTER_GAP_MAX then
    if s.morse_len > 0 then
      ({ s with morse_len := 0 }, [morse_to_char (cstr s.morse_buf)])
    else (s, [])
  else if s.gap_ms ≥ WORD_GAP_MIN then
    if s.morse_len > 0 then
      ({ s with morse_len := 0 }, [morse_to_char (cstr s.morse_buf), ' '])
    else (s, [' '])
  else (s, [])

/-- Lines 118-163: extend the current run, or handle the edge. -/
def edge_step (s : DecoderState) (sample : Bool) : DecoderState × List Char :=
  if sample = s.prev_on then
    ({ s with state_duration_ms := int_add s.state_duration_ms SAMPLE_MS }, [])
  else
    let r := if s.prev_on then falling_edge s else rising_edge s
    ({ r.1 with prev_on := sample, state_duration_ms := SAMPLE_MS }, r.2)

/-- Lines 165-167: accumulate the gap while off. -/
def gap_step (s : DecoderState) (sample : Bool) : DecoderState :=
  if !sample then { s with gap_ms := int_add s.gap_ms SAMPLE_MS } else s

/-- Lines 169-176: the extra flush after a long off time. -/
def stall_flush (s : DecoderState) (sample : Bool) : DecoderState × List Char :=
  if !sample && decide (s.gap_ms > WORD_GAP_MIN * 2) && decide (s.morse_len > 0) then
    ({ s with morse_len := 0 }, [morse_to_char (cstr s.morse_buf), ' '])
  else (s, [])

/-- One loop iteration after a successful read, for the sample `sample` (the source's `on`)
(lines 118-176): the next state and the characters printed. -/
def tick (s : DecoderState) (sample : Bool) : DecoderState × List Char :=
  let r1 := edge_step s sample
  let r2 := stall_flush (gap_step r1.1 sample) sample
  (r2.1, r1.2 ++ r2.2)

/-- One full loop iteration (lines 105-178): `read` is `none` when
`adc_oneshot_read` fails and `some raw` otherwise. -/
def loop_iter (threshold : Int) (s : DecoderState) (read : Option Int) :
    DecoderState × List Char :=
  match read with
  | none => (s, [])
  | some raw => tick s (decide (raw > threshold))

/-- The decoder fed a finite sequence of samples: the final state and
everything printed, in order. -/
def run (s : DecoderState) : List Bool → DecoderState × List Char
  | [] => (s, [])
  | sample :: rest =>
    let r := tick s sample
    let r' := run r.1 rest
    (r'.1, r.2 ++ r'.2)

/-- The first `morse_len` bytes of `morse_buf`: the symbols buffered so far. -/
def pending (s : DecoderState) : List Char :=
  s.morse_buf.val.take s.morse_len

/-- A buffer of sixteen NUL bytes. -/
def zero_buf : Buf := ⟨List.replicate 16 NUL, by simp [MORSE_BUF_SIZE]⟩

/-! ## Encoder (send.c) -/

def LED_PIN : Nat := 17
def DOT_MS : Nat := 200

/-- The C type `morse_t` of the encoder: a character and its code. -/
structure morse_t where
  ch : Char
  morse : List Char
deriving DecidableEq, Repr

/-- The `MORSE_TABLE` of the encoder, in source order. -/
def MORSE_TABLE : List morse_t := [
  ⟨'A', ['.', '-']⟩, ⟨'B', ['-', '.', '.', '.']⟩,
  ⟨'C', ['-', '.', '-', '.']⟩, ⟨'D', ['-', '.', '.']⟩,
  ⟨'E', ['.']⟩, ⟨'F', ['.', '.', '-', '.']⟩,
  ⟨'G', ['-', '-', '.']⟩, ⟨'H', ['.', '.', '.', '.']⟩,
  ⟨'I', ['.', '.']⟩, ⟨'J', ['.', '-', '-', '-']⟩,
  ⟨'K', ['-', '.', '-']⟩, ⟨'L', ['.', '-', '.', '.']⟩,
  ⟨'M', ['-', '-']⟩, ⟨'N', ['-', '.']⟩,
  ⟨'O', ['-', '-', '-']⟩, ⟨'P', ['.', '-', '-', '.']⟩,
  ⟨'Q', ['-', '-', '.', '-']⟩, ⟨'R', ['.', '-', '.']⟩,
  ⟨'S', ['.', '.', '.']⟩, ⟨'T', ['-']⟩,
  ⟨'U', ['.', '.', '-']⟩, ⟨'V', ['.', '.', '.', '-']⟩,
  ⟨'W', ['.', '-', '-']⟩, ⟨'X', ['-', '.', '.', '-']⟩,
  ⟨'Y', ['-', '.', '-', '-']⟩, ⟨'Z', ['-', '-', '.', '.']⟩,
  ⟨'0', ['-', '-', '-', '-', '-']⟩, ⟨'1', ['.', '-', '-', '-', '-']⟩,
  ⟨'2', ['.', '.', '-', '-', '-']⟩, ⟨'3', ['.', '.', '.', '-', '-']⟩,
  ⟨'4', ['.', '.', '.', '.', '-']⟩, ⟨'5', ['.', '.', '.', '.', '.']⟩,
  ⟨'6', ['-', '.', '.', '.', '.']⟩, ⟨'7', ['-', '-', '.', '.', '.']⟩,
  ⟨'8', ['-', '-', '-', '.', '.']⟩, ⟨'9', ['-', '-', '-', '-', '.']⟩]

/-- The output pin and what has been emitted so far: `level` is the level
last written to `LED_PIN`, `trace` has one `(level, ms)` entry per `delay(ms)`
call, in order. -/
structure Led where
  level : Bool
  trace : List (Bool × Nat)
deriving DecidableEq, Repr

def led_on (h : Led) : Led := { h with level := true }

def led_off (h : Led) : Led := { h with level := false }

/-- The call `delay(ms)`: the pin keeps its level for `ms` milliseconds. -/
def delay (ms : Nat) (h : Led) : Led :=
  { h with trace := h.trace ++ [(h.level, ms)] }

def send_dot (h : Led) : Led :=
  delay DOT_MS (led_off (delay DOT_MS (led_on h)))

def send_dash (h : Led) : Led :=
  delay DOT_MS (led_off (delay (3 * DOT_MS) (led_on h)))

/-- The loop of `char_to_morse` over the remaining table entries; `none` is
the `NULL` result. -/
def char_lookup (c : Char) : List morse_t → Option (List Char)
  | [] => none
  | e :: rest => if e.ch = c then some e.morse else char_lookup c rest

def char_to_morse (c : Char) : Option (List Char) :=
  char_lookup c MORSE_TABLE

/-- The `for` loop of `send_char` (lines 98-105) over the symbols of a code. -/
def send_symbols : List Char → Led → Led
  | [], h => h
  | x :: m, h =>
    send_symbols m (if x = '.' then send_dot h else if x = '-' then send_dash h else h)

def send_char (c : Char) (h : Led) : Led :=
  if c = ' ' then delay (7 * DOT_MS) h
  else
    match char_to_morse c with
    | none => h
    | some m => delay (2 * DOT_MS) (send_symbols m h)

/-- Lines 139-141: a lowercase letter is replaced by `toupper` of it, any
other character is kept. -/
def upcase (c : Char) : Char :=
  if 'a' ≤ c ∧ c ≤ 'z' then c.toUpper else c

/-- The `while (*p)` loop of `main` (lines 137-143) over the message. -/
def send_message : List Char → Led → Led
  | [], h => h
  | c :: p, h => send_message p (send_char (upcase c) h)

/-- One repetition of the `for` loop of `main` (lines 136-145): the message,
then the gap between messages. -/
def send_repetition (msg : List Char) (h : Led) : Led :=
  delay (7 * DOT_MS) (send_message msg h)

/-- The `for` loop of `main` (lines 135-146). -/
def send_repetitions : Nat → List Char → Led → Led
  | 0, _, h => h
  | r + 1, msg, h => send_repetitions r msg (send_repetition msg h)

/-- The pin state when the `for` loop of `main` starts: `led_off()` has been
called (line 133) and no `delay` yet. -/
def led_start : Led := { level := false, trace := [] }

/-- The pulse train the encoder emits for one repetition of a message. -/
def pulse_train (msg : List Char) : List (Bool × Nat) :=
  (send_repetition msg led_start).trace

/-! ## Ideal sampling of a pulse train -/

/-- The decoder's sampling period as a natural number of milliseconds. -/
def SAMPLE_PERIOD : Nat := SAMPLE_MS.toNat

/-- Ideal sampling: a pulse of `d` ms at a level gives `d / SAMPLE_MS`
consecutive samples of that level. -/
def sample_pulses : List (Bool × Nat) → List Bool
  | [] => []
  | (level, d) :: rest => List.replicate (d / SAMPLE_PERIOD) level ++ sample_pulses rest

/-! ## The decoder with its symbol buffer viewed as a list

The same loop body as `tick`, on a state whose buffer is the list of the
symbols buffered so far. `tick_refines` relates the two. -/

/-- The decoder state with the buffer as the list of buffered symbols. -/
structure LState where
  prev_on : Bool
  dur : Int
  gap : Int
  syms : List Char
deriving DecidableEq, Repr

def lpush (s : LState) (sym : Char) : LState :=
  if s.syms.length < MORSE_BUF_SIZE - 1 then { s with syms := s.syms ++ [sym] } else s

def lfalling (s : LState) : LState × List Char :=
  let s1 := if s.dur < DOT_MAX then lpush s '.' else lpush s '-'
  ({ s1 with gap := 0 }, [])

def lrising (s : LState) : LState × List Char :=
  if s.gap ≥ LETTER_GAP_MIN ∧ s.gap < LETTER_GAP_MAX then
    if s.syms.length > 0 then
      ({ s with syms := [] }, [morse_to_char s.syms])
    else (s, [])
  else if s.gap ≥ WORD_GAP_MIN then
    if s.syms.length > 0 then
      ({ s with syms := [] }, [morse_to_char s.syms, ' '])
    else (s, [' '])
  else (s, [])

def ledge (s : LState) (sample : Bool) : LState × List Char :=
  if sample = s.prev_on then
    ({ s with dur := int_add s.dur SAMPLE_MS }, [])
  else
    let r := if s.prev_on then lfalling s else lrising s
    ({ r.1 with prev_on := sample, dur := SAMPLE_MS }, r.2)

def lgap (s : LState) (sample : Bool) : LState :=
  if !sample then { s with gap := int_add s.gap SAMPLE_MS } else s

def lstall (s : LState) (sample : Bool) : LState × List Char :=
  if !sample && decide (s.gap > WORD_GAP_MIN * 2) && decide (s.syms.length > 0) then
    ({ s with syms := [] }, [morse_to_char s.syms, ' '])
  else (s, [])

def ltick (s : LState) (sample : Bool) : LState × List Char :=
  let r1 := ledge s sample
  let r2 := lstall (lgap r1.1 sample) sample
  (r2.1, r1.2 ++ r2.2)

def lrun (s : LState) : List Bool → LState × List Char
  | [] => (s, [])
  | sample :: rest =>
    let r := ltick s sample
    let r' := lrun r.1 rest
    (r'.1, r.2 ++ r'.2)

/-- The list view of a decoder state. -/
def view (s : DecoderState) : LState :=
  { prev_on := s.prev_on, dur := s.state_duration_ms, gap := s.gap_ms, syms := pending s }

/-- Well-formedness of the symbol buffer: at most 15 symbols, each a dot or a
dash, and a NUL right after them whenever there is at least one. -/
def WellFormed (s : DecoderState) : Prop :=
  s.morse_len ≤ MORSE_BUF_SIZE - 1 ∧
  (∀ c ∈ pending s, c = '.' ∨ c = '-') ∧
  (0 < s.morse_len → s.morse_buf.val.get? s.morse_len = some NUL)


/-! ## Definitions used in the statements and proofs below -/

/-- A step of the array decoder and a step of the list decoder agree. -/
def Agree (r : DecoderState × List Char) (q : LState × List Char) : Prop :=
  view r.1 = q.1 ∧ r.2 = q.2 ∧ WellFormed r.1

/-- The list view of the initial state. -/
def linit : LState := { prev_on := false, dur := 0, gap := 0, syms := [] }

/-- An `int` counter after `n` further `+= SAMPLE_MS`. -/
def add_samples : Nat → Int → Int
  | 0, x => x
  | n + 1, x => add_samples n (int_add x SAMPLE_MS)

/-- The value of a run counter (`state_duration_ms`, or `gap_ms` after an on
run) at the end of a run of `n ≥ 1` samples: `SAMPLE_MS` after the first
sample and `+= SAMPLE_MS` for each further one. -/
def run_ms (n : Nat) : Int :=
  add_samples (n - 1) SAMPLE_MS

/-- The list-decoder state right after the off sample that ends an on run of
`n` samples begun in state `s`. -/
def after_pulse (s : LState) (n : Nat) : LState :=
  { (lpush (lrising s).1 (if run_ms n < DOT_MAX then '.' else '-')) with
    prev_on := false, dur := SAMPLE_MS, gap := SAMPLE_MS }

/-- Samples per Morse unit: `UNIT_MS / SAMPLE_MS`. -/
def UNIT_SAMPLES : Nat := (UNIT_MS / SAMPLE_MS).toNat

/-- The sample sequence of the end-to-end example: on 1 unit, off 1 unit,
on 1 unit, off 3 units, on 3 units, off 6 units. -/
def example_samples : List Bool :=
  List.replicate (1 * UNIT_SAMPLES) true ++ List.replicate (1 * UNIT_SAMPLES) false ++
  List.replicate (1 * UNIT_SAMPLES) true ++ List.replicate (3 * UNIT_SAMPLES) false ++
  List.replicate (3 * UNIT_SAMPLES) true ++ List.replicate (6 * UNIT_SAMPLES) false

/-- The pulses of a code as the specification words them: a dot is on for 1
unit and off for 1 unit, a dash is on for 3 units and off for 1 unit. -/
def symbol_pulses : List Char → List (Bool × Nat)
  | [] => []
  | x :: m =>
    (if x = '.' then [(true, DOT_MS), (false, DOT_MS)]
     else if x = '-' then [(true, 3 * DOT_MS), (false, DOT_MS)]
     else []) ++ symbol_pulses m

/-- Total duration of a pulse train, in milliseconds. -/
def duration (t : List (Bool × Nat)) : Nat :=
  (t.map Prod.snd).sum

/-- Adjacent pulses of the same level merged into one pulse. -/
def merge_pulses : List (Bool × Nat) → List (Bool × Nat)
  | [] => []
  | (l, d) :: rest =>
    match merge_pulses rest with
    | [] => [(l, d)]
    | (l2, d2) :: rest2 => if l = l2 then (l, d + d2) :: rest2 else (l, d) :: (l2, d2) :: rest2

/-- The pulses `send_char` appends for a character when the pin is off. -/
def char_pulses (c : Char) : List (Bool × Nat) :=
  if c = ' ' then [(false, 7 * DOT_MS)]
  else
    match char_to_morse c with
    | none => []
    | some m => symbol_pulses m ++ [(false, 2 * DOT_MS)]

/-- The pulses of a whole message, character by character. -/
def message_pulses : List Char → List (Bool × Nat)
  | [] => []
  | c :: p => char_pulses (upcase c) ++ message_pulses p

/-- The list decoder in an off run: level off, `dur` and `gap` both `g`. -/
def off_state (g : Int) (syms : List Char) : LState :=
  { prev_on := false, dur := g, gap := g, syms := syms }

/-- The characters a message may contain for the round trip: a space, or a
letter or digit (the table's characters and the lowercase letters). -/
def supported (c : Char) : Prop :=
  c = ' ' ∨ ('A' ≤ c ∧ c ≤ 'Z') ∨ ('a' ≤ c ∧ c ≤ 'z') ∨ ('0' ≤ c ∧ c ≤ '9')

/-- What the decoder prints for (the rest of) a message. `started` tells
whether a letter or digit came before, `j` counts the spaces since then (or
since the start). A letter or digit is printed upper-cased; before it comes
one space if it is the first one and spaces precede it, no space if it
directly follows another one, one space if exactly one space separates them
and two spaces if two or more do. After the last letter or digit comes one
space, whatever spaces end the message. -/
def expected_from (started : Bool) (j : Nat) : List Char → List Char
  | [] => if started then [' '] else []
  | c :: rest =>
    if c = ' ' then expected_from started (j + 1) rest
    else
      (if started then (if j = 0 then [] else if j = 1 then [' '] else [' ', ' '])
       else (if j = 0 then [] else [' '])) ++ upcase c :: expected_from true 0 rest

/-- What the decoder prints for a message. -/
def expected_output (msg : List Char) : List Char :=
  expected_from false 0 msg

/-- The samples of the rest of a message, of the gap between messages and of
`k` further off samples. -/
def tail_samples (k : Nat) (msg : List Char) : List Bool :=
  sample_pulses (message_pulses msg ++ [(false, 7 * DOT_MS)]) ++ List.replicate k false

instance (c : Char) : Decidable (supported c) := by
  unfold supported
  infer_instance

/-- Whether the rest of a message has no two adjacent spaces and does not end
in a space, `prev_space` telling whether the character before it is a space
(or the start of the message). -/
def single_spaced_from : Bool → List Char → Bool
  | prev_space, [] => !prev_space
  | prev_space, c :: rest =>
    if c = ' ' then !prev_space && single_spaced_from true rest
    else single_spaced_from false rest

/-- A non-empty message without leading, trailing or doubled spaces. -/
def single_spaced (msg : List Char) : Bool :=
  single_spaced_from true msg

/-- The sampling loop (lines 104-179) over a finite sequence of reads, a
failed read being `none`: the final state and everything printed. -/
def loop_run (threshold : Int) (s : DecoderState) : List (Option Int) → DecoderState × List Char
  | [] => (s, [])
  | r :: rest =>
    let q := loop_iter threshold s r
    let q2 := loop_run threshold q.1 rest
    (q2.1, q.2 ++ q2.2)

/-- The samples the successful reads of a sequence give (line 113). -/
def samples_of_reads (threshold : Int) : List (Option Int) → List Bool
  | [] => []
  | none :: rest => samples_of_reads threshold rest
  | some raw :: rest => decide (raw > threshold) :: samples_of_reads threshold rest

/-- The encoder's `main` (lines 112-150). `argv` holds all `argc` argument
strings, the program name first; `atoi` is the C library's conversion and
`setup_result` the value `wiringPiSetupGpio()` returns. The result is the
exit status and the trace of the pulses emitted. -/
def main (argv : List (List Char)) (atoi : List Char → Int) (setup_result : Int) :
    Int × List (Bool × Nat) :=
  if argv.length < 3 then (1, [])
  else
    let repetitions := atoi (argv.getD 1 [])
    if repetitions ≤ 0 then (1, [])
    else
      let msg := argv.getD 2 []
      if setup_result = -1 then (1, [])
      else
        (0, (led_off (send_repetitions repetitions.toNat msg
              (led_off { level := false, trace := [] }))).trace)

/-- Whether the encoder emits anything for a character of the message: it is
a space or, after the upper-casing of a-z, a character of the table. -/
def encodable (c : Char) : Bool :=
  decide (c = ' ') || (char_to_morse (upcase c)).isSome

/-- The characters the decoder may print: A-Z, 0-9, `'?'` and the space. -/
def output_char (c : Char) : Prop :=
  ('A' ≤ c ∧ c ≤ 'Z') ∨ ('0' ≤ c ∧ c ≤ '9') ∨ c = '?' ∨ c = ' '

instance (c : Char) : Decidable (output_char c) := by
  unfold output_char
  infer_instance

/-- The pulse train repeated: `r` copies of the train `t`, one after the
other. -/
def repeat_train : Nat → List (Bool × Nat) → List (Bool × Nat)
  | 0, _ => []
  | r + 1, t => t ++ repeat_train r t

/-! ## List facts used for the buffer -/

theorem take_set_set (l : List Char) (n : Nat) (a b : Char) (h : n < l.length) :
    ((l.set n a).set (n + 1) b).take (n + 1) = l.take n ++ [a] := by
  induction l generalizing n with
  | nil => simp at h
  | cons x xs ih =>
    cases n with
    | zero => cases xs <;> simp
    | succ k =>
      simp only [List.length_cons, Nat.add_lt_add_iff_right] at h
      simp [ih k h]

theorem get_set_set (l : List Char) (n : Nat) (a b : Char) (h : n + 1 < l.length) :
    ((l.set n a).set (n + 1) b).get? (n + 1) = some b := by
  induction l generalizing n with
  | nil => simp at h
  | cons x xs ih =>
    cases n with
    | zero =>
      cases xs with
      | nil => simp at h
      | cons y ys => simp
    | succ k =>
      simp only [List.length_cons, Nat.add_lt_add_iff_right] at h
      simpa using ih k h

theorem takeWhile_take (l : List Char) (n : Nat) (h0 : l.get? n = some NUL)
    (h1 : ∀ c ∈ l.take n, c ≠ NUL) :
    l.takeWhile (fun c => c != NUL) = l.take n := by
  induction l generalizing n with
  | nil => simp at h0
  | cons x xs ih =>
    cases n with
    | zero =>
      simp only [List.get?_cons_zero, Option.some.injEq] at h0
      simp [h0]
    | succ k =>
      have hx : x ≠ NUL := h1 x (by simp)
      have hk : ∀ c ∈ xs.take k, c ≠ NUL := fun c hc => h1 c (by simp [hc])
      simp only [List.get?_cons_succ] at h0
      simp [hx, ih k h0 hk]

/-! ## The array decoder refines the list decoder -/

theorem pending_length (s : DecoderState) (h : s.morse_len ≤ MORSE_BUF_SIZE - 1) :
    (pending s).length = s.morse_len := by
  have hb := s.morse_buf.property
  simp only [MORSE_BUF_SIZE] at h hb
  simp only [pending, List.length_take, hb]
  omega

theorem cstr_eq_pending (s : DecoderState) (hw : WellFormed s) (hl : 0 < s.morse_len) :
    cstr s.morse_buf = pending s := by
  obtain ⟨_, h2, h3⟩ := hw
  unfold cstr pending
  apply takeWhile_take _ _ (h3 hl)
  intro c hc
  rcases h2 c hc with h | h <;> rw [h] <;> decide

theorem wellFormed_flush (s : DecoderState) (d g : Int) (b : Bool) :
    WellFormed { s with prev_on := b, state_duration_ms := d, gap_ms := g, morse_len := 0 } := by
  refine ⟨Nat.zero_le _, ?_, ?_⟩
  · intro c hc; simp [pending] at hc
  · intro h; simp at h

theorem wellFormed_frame (s : DecoderState) (d g : Int) (b : Bool) (hw : WellFormed s) :
    WellFormed { s with prev_on := b, state_duration_ms := d, gap_ms := g } := hw

theorem pending_push (s : DecoderState) (sym : Char) (h : s.morse_len < MORSE_BUF_SIZE - 1) :
    pending (push_symbol s sym) = pending s ++ [sym] := by
  have hb := s.morse_buf.property
  simp only [MORSE_BUF_SIZE] at h hb
  have h' : s.morse_len < MORSE_BUF_SIZE - 1 := h
  simp only [push_symbol, h', if_true, pending, Buf.set]
  exact take_set_set _ _ _ _ (by omega)

theorem wellFormed_push (s : DecoderState) (sym : Char) (hs : sym = '.' ∨ sym = '-')
    (hw : WellFormed s) : WellFormed (push_symbol s sym) := by
  by_cases h : s.morse_len < MORSE_BUF_SIZE - 1
  · have hp := pending_push s sym h
    have hb := s.morse_buf.property
    obtain ⟨_, h2, _⟩ := hw
    refine ⟨?_, ?_, ?_⟩
    · simp only [push_symbol, h, if_true]; simp only [MORSE_BUF_SIZE] at h ⊢; omega
    · intro c hc
      rw [hp, List.mem_append] at hc
      rcases hc with hc | hc
      · exact h2 c hc
      · simp only [List.mem_singleton] at hc; rw [hc]; exact hs
    · intro _
      simp only [push_symbol, h, if_true, Buf.set]
      simp only [MORSE_BUF_SIZE] at h hb
      exact get_set_set _ _ _ _ (by omega)
  · simp only [push_symbol, h, if_false]; exact hw

theorem view_push (s : DecoderState) (sym : Char) (hw : WellFormed s) :
    view (push_symbol s sym) = lpush (view s) sym := by
  have hl := pending_length s hw.1
  by_cases h : s.morse_len < MORSE_BUF_SIZE - 1
  · have hp := pending_push s sym h
    have h' : (pending s).length < MORSE_BUF_SIZE - 1 := by rw [hl]; exact h
    simp only [view, lpush, h', if_true, hp]
    simp [push_symbol, h]
  · have h' : ¬ (pending s).length < MORSE_BUF_SIZE - 1 := by rw [hl]; exact h
    simp [view, lpush, h', push_symbol, h]

theorem falling_agree (s : DecoderState) (hw : WellFormed s) :
    Agree (falling_edge s) (lfalling (view s)) := by
  have key : ∀ sym : Char, (sym = '.' ∨ sym = '-') →
      Agree ({ push_symbol s sym with gap_ms := 0 }, [])
        ({ lpush (view s) sym with gap := 0 }, []) := by
    intro sym hs
    refine ⟨?_, rfl, wellFormed_frame _ _ _ _ (wellFormed_push s _ hs hw)⟩
    rw [← view_push s sym hw]
    rfl
  unfold falling_edge lfalling
  by_cases h : s.state_duration_ms < DOT_MAX
  · have h' : (view s).dur < DOT_MAX := h
    simp only [h, h', if_true]
    exact key _ (Or.inl rfl)
  · have h' : ¬ (view s).dur < DOT_MAX := h
    simp only [h, h', if_false]
    exact key _ (Or.inr rfl)

theorem rising_agree (s : DecoderState) (hw : WellFormed s) :
    Agree (rising_edge s) (lrising (view s)) := by
  have hl := pending_length s hw.1
  have hg : (view s).gap = s.gap_ms := rfl
  have hs : (view s).syms = pending s := rfl
  unfold rising_edge lrising
  rw [hg, hs, hl]
  by_cases hlen : s.morse_len > 0
  · have hc := cstr_eq_pending s hw hlen
    simp only [hlen, if_true, hc]
    split_ifs
    · exact ⟨by simp [view, pending], rfl, wellFormed_flush s _ _ _⟩
    · exact ⟨by simp [view, pending], rfl, wellFormed_flush s _ _ _⟩
    · exact ⟨rfl, rfl, hw⟩
  · simp only [hlen, if_false]
    split_ifs
    · exact ⟨rfl, rfl, hw⟩
    · exact ⟨rfl, rfl, hw⟩
    · exact ⟨rfl, rfl, hw⟩

theorem edge_agree (s : DecoderState) (b : Bool) (hw : WellFormed s) :
    Agree (edge_step s b) (ledge (view s) b) := by
  have hp : (view s).prev_on = s.prev_on := rfl
  unfold edge_step ledge
  rw [hp]
  by_cases h : b = s.prev_on
  · simp only [h, if_true]
    exact ⟨rfl, rfl, hw⟩
  · simp only [h, if_false]
    cases hpo : s.prev_on
    · obtain ⟨h1, h2, h3⟩ := rising_agree s hw
      simp only [Bool.false_eq_true, if_false]
      refine ⟨?_, h2, wellFormed_frame _ _ _ _ h3⟩
      rw [← h1]; rfl
    · obtain ⟨h1, h2, h3⟩ := falling_agree s hw
      simp only [if_true]
      refine ⟨?_, h2, wellFormed_frame _ _ _ _ h3⟩
      rw [← h1]; rfl

theorem gap_agree (s : DecoderState) (b : Bool) (hw : WellFormed s) :
    view (gap_step s b) = lgap (view s) b ∧ WellFormed (gap_step s b) := by
  unfold gap_step lgap
  cases b
  · exact ⟨rfl, hw⟩
  · exact ⟨rfl, hw⟩

theorem stall_agree (s : DecoderState) (b : Bool) (hw : WellFormed s) :
    Agree (stall_flush s b) (lstall (view s) b) := by
  have hl := pending_length s hw.1
  have hg : (view s).gap = s.gap_ms := rfl
  have hs : (view s).syms = pending s := rfl
  unfold stall_flush lstall
  rw [hg, hs, hl]
  by_cases hlen : s.morse_len > 0
  · have hc := cstr_eq_pending s hw hlen
    rw [hc]
    split_ifs
    · exact ⟨by simp [view, pending], rfl, wellFormed_flush s _ _ _⟩
    · exact ⟨rfl, rfl, hw⟩
  · simp only [hlen, decide_False, Bool.and_false, Bool.false_eq_true, if_false]
    exact ⟨rfl, rfl, hw⟩

/-- Refinement, one tick: from a well-formed state the array decoder prints
what the list decoder prints, reaches the state the list decoder reaches, and
stays well-formed. -/
theorem tick_refines (s : DecoderState) (b : Bool) (hw : WellFormed s) :
    Agree (tick s b) (ltick (view s) b) := by
  obtain ⟨e1, e2, e3⟩ := edge_agree s b hw
  obtain ⟨g1, g2⟩ := gap_agree (edge_step s b).1 b e3
  obtain ⟨f1, f2, f3⟩ := stall_agree _ b g2
  unfold tick ltick
  simp only
  rw [← e1, ← g1, ← e2]
  exact ⟨f1, by rw [f2], f3⟩

/-- Refinement, any sample sequence. -/
theorem run_refines (samples : List Bool) (s : DecoderState) (hw : WellFormed s) :
    Agree (run s samples) (lrun (view s) samples) := by
  induction samples generalizing s with
  | nil => exact ⟨rfl, rfl, hw⟩
  | cons b rest ih =>
    obtain ⟨t1, t2, t3⟩ := tick_refines s b hw
    obtain ⟨r1, r2, r3⟩ := ih (tick s b).1 t3
    unfold run lrun
    simp only
    rw [← t1, ← t2]
    exact ⟨r1, by rw [r2], r3⟩

theorem wellFormed_init (buf0 : Buf) : WellFormed (init buf0) := by
  refine ⟨Nat.zero_le _, ?_, ?_⟩
  · intro c hc; simp [pending, init] at hc
  · intro h; simp [init] at h

theorem view_init (buf0 : Buf) : view (init buf0) = linit := by
  simp [view, init, linit, pending]

/-! ## The two tables -/

theorem morse_lookup_none (code : List Char) (t : List morse_map_t)
    (h : ∀ e ∈ t, e.morse ≠ code) : morse_lookup code t = '?' := by
  induction t with
  | nil => rfl
  | cons e rest ih =>
    have he : e.morse ≠ code := h e (by simp)
    simp only [morse_lookup, he, if_false]
    exact ih (fun x hx => h x (by simp [hx]))

theorem morse_lookup_range (code : List Char) (t : List morse_map_t) :
    morse_lookup code t = '?' ∨ ∃ e ∈ t, e.morse = code ∧ morse_lookup code t = e.letter := by
  induction t with
  | nil => exact Or.inl rfl
  | cons e rest ih =>
    by_cases he : e.morse = code
    · exact Or.inr ⟨e, by simp, he, by simp [morse_lookup, he]⟩
    · simp only [morse_lookup, he, if_false]
      rcases ih with h | ⟨x, hx, h1, h2⟩
      · exact Or.inl h
      · exact Or.inr ⟨x, by simp [hx], h1, h2⟩

theorem char_lookup_mem (c : Char) (t : List morse_t) (m : List Char)
    (h : char_lookup c t = some m) : (⟨c, m⟩ : morse_t) ∈ t := by
  induction t with
  | nil => simp [char_lookup] at h
  | cons e rest ih =>
    by_cases he : e.ch = c
    · simp only [char_lookup, he, if_true, Option.some.injEq] at h
      have : e = ⟨c, m⟩ := by cases e; simp_all
      simp [this]
    · simp only [char_lookup, he, if_false] at h
      simp [ih h]

theorem upper_mem_table (c : Char) (h : 'A' ≤ c ∧ c ≤ 'Z') :
    c ∈ MORSE_TABLE.map (fun e => e.ch) := by
  obtain ⟨h1, h2⟩ := h
  have e : c = Char.ofNat c.toNat := (Char.ofNat_toNat c).symm
  have h1' : 65 ≤ c.toNat := h1
  have h2' : c.toNat ≤ 90 := h2
  generalize c.toNat = n at e h1' h2'
  subst e
  interval_cases n <;> decide

theorem digit_mem_table (c : Char) (h : '0' ≤ c ∧ c ≤ '9') :
    c ∈ MORSE_TABLE.map (fun e => e.ch) := by
  obtain ⟨h1, h2⟩ := h
  have e : c = Char.ofNat c.toNat := (Char.ofNat_toNat c).symm
  have h1' : 48 ≤ c.toNat := h1
  have h2' : c.toNat ≤ 57 := h2
  generalize c.toNat = n at e h1' h2'
  subst e
  interval_cases n <;> decide

theorem table_roundtrip :
    ∀ e ∈ MORSE_TABLE, char_to_morse e.ch = some e.morse ∧ morse_to_char e.morse = e.ch := by
  decide

theorem table_codes_distinct :
    ∀ e ∈ MORSE_TABLE, ∀ f ∈ MORSE_TABLE, e.morse = f.morse → e.ch = f.ch := by
  decide

/-! ## Runs of equal samples, list decoder -/

theorem lrun_cons (x : Bool) (xs : List Bool) (s : LState) :
    lrun s (x :: xs) = ((lrun (ltick s x).1 xs).1, (ltick s x).2 ++ (lrun (ltick s x).1 xs).2) :=
  rfl

theorem lrun_append (a b : List Bool) (s : LState) :
    lrun s (a ++ b) = ((lrun (lrun s a).1 b).1, (lrun s a).2 ++ (lrun (lrun s a).1 b).2) := by
  induction a generalizing s with
  | nil => simp [lrun]
  | cons x xs ih =>
    rw [List.cons_append, lrun_cons, lrun_cons, ih]
    simp only [List.append_assoc]

theorem wrap_int_of_range (x : Int) (h1 : INT_MIN ≤ x) (h2 : x ≤ INT_MAX) : wrap_int x = x := by
  simp only [wrap_int, INT_MIN, INT_MAX] at *
  omega

theorem wrap_int_range (x : Int) : INT_MIN ≤ wrap_int x ∧ wrap_int x ≤ INT_MAX := by
  simp only [wrap_int, INT_MIN, INT_MAX]
  omega

theorem wrap_int_add (a b : Int) : wrap_int (wrap_int a + b) = wrap_int (a + b) := by
  simp only [wrap_int]
  omega

theorem int_add_small (a : Int) (h1 : INT_MIN ≤ a) (h2 : a + SAMPLE_MS ≤ INT_MAX) :
    int_add a SAMPLE_MS = a + SAMPLE_MS := by
  simp only [int_add, wrap_int, INT_MIN, INT_MAX, SAMPLE_MS] at *
  omega

theorem int_add_zero : int_add 0 SAMPLE_MS = SAMPLE_MS := by
  decide

theorem add_samples_succ (n : Nat) (x : Int) :
    add_samples (n + 1) x = add_samples n (int_add x SAMPLE_MS) :=
  rfl

/-- The counter after `n` additions is the wrapped sum. -/
theorem add_samples_eq (n : Nat) (x : Int) (h : wrap_int x = x) :
    add_samples n x = wrap_int (x + SAMPLE_MS * n) := by
  induction n generalizing x with
  | zero => simp [add_samples, h]
  | succ k ih =>
    have hw : wrap_int (int_add x SAMPLE_MS) = int_add x SAMPLE_MS := by
      have := wrap_int_range (x + SAMPLE_MS)
      exact wrap_int_of_range _ this.1 this.2
    rw [add_samples_succ, ih _ hw, int_add, wrap_int_add]
    congr 1
    push_cast
    ring

/-- Below `INT_MAX` the counter is the plain sum. -/
theorem add_samples_small (n : Nat) (x : Int) (h1 : INT_MIN ≤ x)
    (h2 : x + SAMPLE_MS * n ≤ INT_MAX) : add_samples n x = x + SAMPLE_MS * n := by
  have hx : x ≤ INT_MAX := by
    simp only [SAMPLE_MS] at h2 ⊢
    have : (0 : Int) ≤ (n : Int) := Int.natCast_nonneg n
    omega
  rw [add_samples_eq n x (wrap_int_of_range x h1 hx)]
  apply wrap_int_of_range _ _ h2
  simp only [SAMPLE_MS]
  have : (0 : Int) ≤ (n : Int) := Int.natCast_nonneg n
  omega

theorem run_ms_eq (n : Nat) (hn : 1 ≤ n) : run_ms n = wrap_int (SAMPLE_MS * n) := by
  obtain ⟨m, rfl⟩ : ∃ m, n = m + 1 := ⟨n - 1, by omega⟩
  have h0 : wrap_int SAMPLE_MS = SAMPLE_MS := by decide
  simp only [run_ms, Nat.add_sub_cancel]
  rw [add_samples_eq m SAMPLE_MS h0]
  congr 1
  push_cast
  ring

theorem run_ms_small (n : Nat) (hn : 1 ≤ n) (h : SAMPLE_MS * (n : Int) ≤ INT_MAX) :
    run_ms n = SAMPLE_MS * n := by
  rw [run_ms_eq n hn]
  apply wrap_int_of_range _ _ h
  simp only [SAMPLE_MS, INT_MIN]
  have : (0 : Int) ≤ (n : Int) := Int.natCast_nonneg n
  omega

theorem ltick_on_same (s : LState) (h : s.prev_on = true) :
    ltick s true = ({ s with dur := int_add s.dur SAMPLE_MS }, []) := by
  simp [ltick, ledge, lgap, lstall, h]

theorem ltick_rise (s : LState) (h : s.prev_on = false) :
    ltick s true =
      ({ (lrising s).1 with prev_on := true, dur := SAMPLE_MS }, (lrising s).2) := by
  simp [ltick, ledge, lgap, lstall, h]

theorem ltick_fall (s : LState) (h : s.prev_on = true) :
    ltick s false =
      ({ (if s.dur < DOT_MAX then lpush s '.' else lpush s '-') with
          prev_on := false, dur := SAMPLE_MS, gap := SAMPLE_MS }, []) := by
  have h2 : ¬ (WORD_GAP_MIN * 2 < SAMPLE_MS) := by decide
  simp [ltick, ledge, lgap, lstall, h, lfalling, int_add_zero, h2]

theorem ltick_off_same (s : LState) (h : s.prev_on = false) :
    ltick s false =
      if int_add s.gap SAMPLE_MS > WORD_GAP_MIN * 2 ∧ s.syms.length > 0 then
        ({ s with dur := int_add s.dur SAMPLE_MS, gap := int_add s.gap SAMPLE_MS, syms := [] },
          [morse_to_char s.syms, ' '])
      else ({ s with dur := int_add s.dur SAMPLE_MS, gap := int_add s.gap SAMPLE_MS }, []) := by
  by_cases h1 : int_add s.gap SAMPLE_MS > WORD_GAP_MIN * 2
  · by_cases h2 : s.syms.length > 0
    · simp [ltick, ledge, lgap, lstall, h, h1, h2]
    · simp [ltick, ledge, lgap, lstall, h, h1, h2]
  · simp [ltick, ledge, lgap, lstall, h, h1]

theorem lrun_on (n : Nat) (s : LState) (h : s.prev_on = true) :
    lrun s (List.replicate n true) = ({ s with dur := add_samples n s.dur }, []) := by
  induction n generalizing s with
  | zero => simp [lrun, add_samples]
  | succ k ih =>
    rw [List.replicate_succ, lrun_cons, ltick_on_same s h]
    rw [ih { s with dur := int_add s.dur SAMPLE_MS } h]
    rfl

/-- An off run that prints nothing: the buffer is empty, or the gap stays at
or below the stall threshold. -/
theorem lrun_off_quiet (n : Nat) (s : LState) (h : s.prev_on = false)
    (hq : s.syms.length = 0 ∨
      (INT_MIN ≤ s.gap ∧ s.gap + SAMPLE_MS * n ≤ WORD_GAP_MIN * 2)) :
    lrun s (List.replicate n false) =
      ({ s with dur := add_samples n s.dur, gap := add_samples n s.gap }, []) := by
  induction n generalizing s with
  | zero => simp [lrun, add_samples]
  | succ k ih =>
    have hno : ¬ (int_add s.gap SAMPLE_MS > WORD_GAP_MIN * 2 ∧ s.syms.length > 0) := by
      rcases hq with h0 | ⟨h1, h2⟩
      · omega
      · have e : int_add s.gap SAMPLE_MS = s.gap + SAMPLE_MS := by
          apply int_add_small _ h1
          simp only [SAMPLE_MS, WORD_GAP_MIN, UNIT_MS, INT_MAX] at h2 ⊢
          push_cast at h2
          omega
        rw [e]
        simp only [SAMPLE_MS, WORD_GAP_MIN, UNIT_MS] at h2 ⊢
        push_cast at h2
        omega
    rw [List.replicate_succ, lrun_cons, ltick_off_same s h, if_neg hno]
    rw [ih { s with dur := int_add s.dur SAMPLE_MS, gap := int_add s.gap SAMPLE_MS } h]
    · rfl
    · rcases hq with h0 | ⟨h1, h2⟩
      · exact Or.inl h0
      · right
        have e : int_add s.gap SAMPLE_MS = s.gap + SAMPLE_MS := by
          apply int_add_small _ h1
          simp only [SAMPLE_MS, WORD_GAP_MIN, UNIT_MS, INT_MAX] at h2 ⊢
          push_cast at h2
          omega
        show INT_MIN ≤ int_add s.gap SAMPLE_MS ∧
          int_add s.gap SAMPLE_MS + SAMPLE_MS * (k : Int) ≤ WORD_GAP_MIN * 2
        rw [e]
        simp only [SAMPLE_MS, WORD_GAP_MIN, UNIT_MS, INT_MIN] at h1 h2 ⊢
        push_cast at h2
        omega

/-- An off run that crosses the stall threshold with symbols buffered: the
stall flush fires once. -/
theorem lrun_off_flush (n : Nat) (s : LState) (h : s.prev_on = false)
    (hs : s.syms.length > 0) (hn : 1 ≤ n)
    (hlo : INT_MIN ≤ s.gap) (hhi : s.gap + SAMPLE_MS ≤ INT_MAX)
    (hg : s.gap + SAMPLE_MS * n > WORD_GAP_MIN * 2) :
    lrun s (List.replicate n false) =
      ({ s with dur := add_samples n s.dur, gap := add_samples n s.gap, syms := [] },
        [morse_to_char s.syms, ' ']) := by
  induction n generalizing s with
  | zero => omega
  | succ k ih =>
    have e : int_add s.gap SAMPLE_MS = s.gap + SAMPLE_MS := int_add_small _ hlo hhi
    rw [List.replicate_succ, lrun_cons, ltick_off_same s h]
    by_cases h1 : int_add s.gap SAMPLE_MS > WORD_GAP_MIN * 2
    · rw [if_pos ⟨h1, hs⟩]
      simp only
      rw [lrun_off_quiet k
        { s with dur := int_add s.dur SAMPLE_MS, gap := int_add s.gap SAMPLE_MS, syms := [] }
        h (Or.inl rfl)]
      rfl
    · rw [if_neg (fun hc => h1 hc.1)]
      simp only
      rw [e] at h1
      have hk : 1 ≤ k := by
        rcases Nat.eq_zero_or_pos k with h0 | h0
        · subst h0
          simp only [SAMPLE_MS, WORD_GAP_MIN, UNIT_MS] at hg h1
          push_cast at hg
          omega
        · exact h0
      rw [ih { s with dur := int_add s.dur SAMPLE_MS, gap := int_add s.gap SAMPLE_MS } h hs hk]
      · rfl
      · show INT_MIN ≤ int_add s.gap SAMPLE_MS
        rw [e]
        simp only [SAMPLE_MS, INT_MIN] at hlo ⊢
        omega
      · show int_add s.gap SAMPLE_MS + SAMPLE_MS ≤ INT_MAX
        rw [e]
        simp only [SAMPLE_MS, WORD_GAP_MIN, UNIT_MS, INT_MAX] at h1 ⊢
        omega
      · show int_add s.gap SAMPLE_MS + SAMPLE_MS * (k : Int) > WORD_GAP_MIN * 2
        rw [e]
        simp only [SAMPLE_MS, WORD_GAP_MIN, UNIT_MS] at hg ⊢
        push_cast at hg
        omega

theorem lpush_frame (s : LState) (b : Bool) (d : Int) (sym : Char) :
    lpush { s with prev_on := b, dur := d } sym = { lpush s sym with prev_on := b, dur := d } := by
  simp only [lpush]
  split_ifs <;> rfl

theorem lrun_on_pulse (s : LState) (n : Nat) (hs : s.prev_on = false) (hn : 1 ≤ n) :
    lrun s (List.replicate n true ++ [false]) = (after_pulse s n, (lrising s).2) := by
  obtain ⟨m, rfl⟩ : ∃ m, n = m + 1 := ⟨n - 1, by omega⟩
  have hp : (ltick s true).1.prev_on = true := by rw [ltick_rise s hs]
  have hd : (ltick s true).1.dur = SAMPLE_MS := by rw [ltick_rise s hs]
  have ho : (ltick s true).2 = (lrising s).2 := by rw [ltick_rise s hs]
  rw [List.replicate_succ, List.cons_append, lrun_cons, lrun_append, lrun_on m _ hp]
  simp only [lrun_cons, lrun, List.append_nil]
  rw [ltick_fall _ (by exact hp)]
  have e : run_ms (m + 1) = add_samples m SAMPLE_MS := rfl
  simp only [hd, ho, List.append_nil, after_pulse, e]
  rw [ltick_rise s hs]
  simp only [Prod.mk.injEq, and_true]
  split_ifs <;> simp only [lpush] <;> split_ifs <;> rfl

/-- An on run of `n` samples followed by an off run of `m + 1` samples. -/
theorem lrun_pulse (s : LState) (n m : Nat) (hs : s.prev_on = false) (hn : 1 ≤ n) :
    lrun s (List.replicate n true ++ List.replicate (m + 1) false) =
      ((lrun (after_pulse s n) (List.replicate m false)).1,
        (lrising s).2 ++ (lrun (after_pulse s n) (List.replicate m false)).2) := by
  have e : List.replicate n true ++ List.replicate (m + 1) false
      = (List.replicate n true ++ [false]) ++ List.replicate m false := by
    rw [List.replicate_succ, List.append_assoc]; rfl
  rw [e, lrun_append, lrun_on_pulse s n hs hn]

theorem run_init_agree (buf0 : Buf) (samples : List Bool) :
    Agree (run (init buf0) samples) (lrun linit samples) := by
  have h := run_refines samples (init buf0) (wellFormed_init buf0)
  rw [view_init] at h
  exact h

theorem view_syms (s : DecoderState) : (view s).syms = pending s := rfl

theorem morse_len_of_view (s : DecoderState) (hw : WellFormed s) :
    s.morse_len = (view s).syms.length :=
  (pending_length s hw.1).symm

/-- One symbol, then silence past the stall threshold, from the initial
state. -/
theorem lrun_stall (n k : Nat) (hn : 1 ≤ n) (hk : WORD_GAP_MIN * 2 < (k : Int) * SAMPLE_MS) :
    lrun linit (List.replicate n true ++ List.replicate k false) =
      ({ prev_on := false, dur := run_ms k, gap := run_ms k, syms := [] },
        [if run_ms n < DOT_MAX then 'E' else 'T', ' ']) := by
  obtain ⟨m, rfl⟩ : ∃ m, k = m + 1 := ⟨k - 1, by
    simp only [WORD_GAP_MIN, UNIT_MS, SAMPLE_MS] at hk; omega⟩
  rw [lrun_pulse linit n m rfl hn]
  have hr : lrising linit = (linit, []) := by decide
  have hm : 1 ≤ m := by
    simp only [WORD_GAP_MIN, UNIT_MS, SAMPLE_MS] at hk; push_cast at hk; omega
  have hlo : INT_MIN ≤ SAMPLE_MS := by decide
  have hhi : SAMPLE_MS + SAMPLE_MS ≤ INT_MAX := by decide
  have hg : SAMPLE_MS + SAMPLE_MS * (m : Int) > WORD_GAP_MIN * 2 := by
    simp only [WORD_GAP_MIN, UNIT_MS, SAMPLE_MS] at hk ⊢; push_cast at hk; omega
  have hrm : run_ms (m + 1) = add_samples m SAMPLE_MS := rfl
  by_cases hd : run_ms n < DOT_MAX
  · have ha : after_pulse linit n
        = { prev_on := false, dur := SAMPLE_MS, gap := SAMPLE_MS, syms := ['.'] } := by
      simp only [after_pulse, hr, if_pos hd]; rfl
    rw [ha, hr, lrun_off_flush m _ rfl (by decide) hm hlo hhi hg, hrm]
    simp only [if_pos hd, List.nil_append, Prod.mk.injEq, LState.mk.injEq, true_and, and_true]
    decide
  · have ha : after_pulse linit n
        = { prev_on := false, dur := SAMPLE_MS, gap := SAMPLE_MS, syms := ['-'] } := by
      simp only [after_pulse, hr, if_neg hd]; rfl
    rw [ha, hr, lrun_off_flush m _ rfl (by decide) hm hlo hhi hg, hrm]
    simp only [if_neg hd, List.nil_append, Prod.mk.injEq, LState.mk.injEq, true_and, and_true]
    decide

/-- An on run of `n` samples followed by an off run of `m + 1` samples that
stays below the stall threshold. -/
theorem lrun_pulse_quiet (s : LState) (n m : Nat) (hs : s.prev_on = false) (hn : 1 ≤ n)
    (hm : SAMPLE_MS * (m + 1 : Nat) ≤ WORD_GAP_MIN * 2) :
    lrun s (List.replicate n true ++ List.replicate (m + 1) false) =
      ({ prev_on := false, dur := SAMPLE_MS * (m + 1 : Nat), gap := SAMPLE_MS * (m + 1 : Nat),
         syms := (after_pulse s n).syms }, (lrising s).2) := by
  have hlo : INT_MIN ≤ SAMPLE_MS := by decide
  have hsum : SAMPLE_MS + SAMPLE_MS * (m : Int) ≤ WORD_GAP_MIN * 2 := by
    push_cast at hm ⊢
    linarith
  have hmax : SAMPLE_MS + SAMPLE_MS * (m : Int) ≤ INT_MAX := by
    have : WORD_GAP_MIN * 2 ≤ INT_MAX := by decide
    linarith
  have hadd := add_samples_small m SAMPLE_MS hlo hmax
  have hgap : (after_pulse s n).gap = SAMPLE_MS := rfl
  have hdur : (after_pulse s n).dur = SAMPLE_MS := rfl
  rw [lrun_pulse s n m hs hn, lrun_off_quiet m (after_pulse s n) rfl
    (Or.inr ⟨by rw [hgap]; exact hlo, by rw [hgap]; exact hsum⟩)]
  simp only [hgap, hdur, hadd, List.append_nil, Prod.mk.injEq, LState.mk.injEq, true_and,
    and_true]
  refine ⟨rfl, ?_, ?_⟩ <;> (push_cast; ring)

theorem example_samples_eq :
    example_samples =
      (List.replicate 20 true ++ List.replicate (19 + 1) false) ++
      ((List.replicate 20 true ++ List.replicate (59 + 1) false) ++
       (List.replicate 60 true ++ List.replicate (119 + 1) false)) := by
  simp only [example_samples, List.append_assoc]
  rfl

theorem run_ms_dot : run_ms 20 = 200 := by
  rw [run_ms_small 20 (by decide) (by decide)]
  decide

theorem run_ms_dash : run_ms 60 = 600 := by
  rw [run_ms_small 60 (by decide) (by decide)]
  decide

theorem lrun_example :
    lrun linit example_samples =
      ({ prev_on := false, dur := 1200, gap := 1200, syms := ['-'] }, ['I']) := by
  rw [example_samples_eq, lrun_append, lrun_pulse_quiet linit 20 19 rfl (by decide) (by decide)]
  simp only
  rw [lrun_append, lrun_pulse_quiet _ 20 59 rfl (by decide) (by decide)]
  simp only
  rw [lrun_pulse_quiet _ 60 119 rfl (by decide) (by decide)]
  simp only [after_pulse, run_ms_dot, run_ms_dash]
  decide

theorem lrun_example_then_on :
    lrun linit (example_samples ++ [true]) =
      ({ prev_on := true, dur := 10, gap := 1200, syms := [] }, ['I', 'T', ' ']) := by
  rw [lrun_append, lrun_example]
  decide

/-! ## Single ticks of the array decoder -/

theorem tick_rise (s : DecoderState) (h : s.prev_on = false) :
    tick s true =
      ({ (rising_edge s).1 with prev_on := true, state_duration_ms := SAMPLE_MS },
        (rising_edge s).2) := by
  simp [tick, edge_step, gap_step, stall_flush, h]

theorem tick_on_same (s : DecoderState) (h : s.prev_on = true) :
    tick s true =
      ({ s with state_duration_ms := int_add s.state_duration_ms SAMPLE_MS }, []) := by
  simp [tick, edge_step, gap_step, stall_flush, h]

theorem tick_fall (s : DecoderState) (h : s.prev_on = true) :
    tick s false =
      ({ (if s.state_duration_ms < DOT_MAX then push_symbol s '.' else push_symbol s '-') with
          prev_on := false, state_duration_ms := SAMPLE_MS, gap_ms := SAMPLE_MS }, []) := by
  have h2 : ¬ (WORD_GAP_MIN * 2 < SAMPLE_MS) := by decide
  simp [tick, edge_step, gap_step, stall_flush, h, falling_edge, int_add_zero, h2]

theorem tick_off_same (s : DecoderState) (h : s.prev_on = false) :
    tick s false =
      if int_add s.gap_ms SAMPLE_MS > WORD_GAP_MIN * 2 ∧ s.morse_len > 0 then
        ({ s with state_duration_ms := int_add s.state_duration_ms SAMPLE_MS,
                  gap_ms := int_add s.gap_ms SAMPLE_MS, morse_len := 0 },
          [morse_to_char (cstr s.morse_buf), ' '])
      else ({ s with state_duration_ms := int_add s.state_duration_ms SAMPLE_MS,
                     gap_ms := int_add s.gap_ms SAMPLE_MS }, []) := by
  by_cases h1 : int_add s.gap_ms SAMPLE_MS > WORD_GAP_MIN * 2
  · by_cases h2 : s.morse_len > 0
    · simp [tick, edge_step, gap_step, stall_flush, h, h1, h2]
    · simp [tick, edge_step, gap_step, stall_flush, h, h1, h2]
  · simp [tick, edge_step, gap_step, stall_flush, h, h1]

/-! ## Runs of equal samples, array decoder -/

theorem run_cons (x : Bool) (xs : List Bool) (s : DecoderState) :
    run s (x :: xs) = ((run (tick s x).1 xs).1, (tick s x).2 ++ (run (tick s x).1 xs).2) :=
  rfl

theorem run_append (a b : List Bool) (s : DecoderState) :
    run s (a ++ b) = ((run (run s a).1 b).1, (run s a).2 ++ (run (run s a).1 b).2) := by
  induction a generalizing s with
  | nil => simp [run]
  | cons x xs ih =>
    rw [List.cons_append, run_cons, run_cons, ih]
    simp only [List.append_assoc]

theorem run_on (n : Nat) (s : DecoderState) (h : s.prev_on = true) :
    run s (List.replicate n true) =
      ({ s with state_duration_ms := add_samples n s.state_duration_ms }, []) := by
  induction n generalizing s with
  | zero => simp [run, add_samples]
  | succ k ih =>
    rw [List.replicate_succ, run_cons, tick_on_same s h]
    rw [ih { s with state_duration_ms := int_add s.state_duration_ms SAMPLE_MS } h]
    rfl

/-- An on run of `n` samples that starts at a rising edge and is ended by an
off sample: the state after the off sample. -/
theorem run_on_pulse (s : DecoderState) (n : Nat) (hs : s.prev_on = false) (hn : 1 ≤ n) :
    (run s (List.replicate n true ++ [false])).1 =
      { (push_symbol (tick s true).1 (if run_ms n < DOT_MAX then '.' else '-')) with
        prev_on := false, state_duration_ms := SAMPLE_MS, gap_ms := SAMPLE_MS } := by
  obtain ⟨m, rfl⟩ : ∃ m, n = m + 1 := ⟨n - 1, by omega⟩
  have hp : (tick s true).1.prev_on = true := by rw [tick_rise s hs]
  have hd : (tick s true).1.state_duration_ms = SAMPLE_MS := by rw [tick_rise s hs]
  rw [List.replicate_succ, List.cons_append, run_cons, run_append, run_on m _ hp]
  simp only [run_cons, run]
  rw [tick_fall _ (by exact hp)]
  have e : run_ms (m + 1) = add_samples m SAMPLE_MS := rfl
  simp only [hd, e]
  split_ifs <;> simp only [push_symbol] <;> split_ifs <;> rfl

/-! ## The encoder's trace -/

theorem send_symbols_eq (m : List Char) (h : Led) :
    send_symbols m h =
      { level := if symbol_pulses m = [] then h.level else false,
        trace := h.trace ++ symbol_pulses m } := by
  induction m generalizing h with
  | nil => simp [send_symbols, symbol_pulses]
  | cons x xs ih =>
    rw [send_symbols, ih]
    by_cases hd : x = '.'
    · subst hd
      simp [symbol_pulses, send_dot, delay, led_on, led_off]
    · by_cases hh : x = '-'
      · subst hh
        simp [symbol_pulses, send_dash, delay, led_on, led_off]
      · simp [symbol_pulses, hd, hh]

theorem table_codes_shape :
    ∀ e ∈ MORSE_TABLE, e.ch ≠ ' ' ∧ e.morse ≠ [] ∧ e.morse.length ≤ 5 ∧
      (∀ x ∈ e.morse, x = '.' ∨ x = '-') ∧ symbol_pulses e.morse ≠ [] ∧
      duration (symbol_pulses e.morse ++ [(false, 2 * DOT_MS)])
        = (2 * e.morse.count '.' + 4 * e.morse.count '-' + 2) * DOT_MS ∧
      (symbol_pulses e.morse ++ [(false, 2 * DOT_MS)]).drop (2 * e.morse.length - 1)
        = [(false, DOT_MS), (false, 2 * DOT_MS)] ∧
      ((symbol_pulses e.morse).get? (2 * e.morse.length - 2)).map Prod.fst = some true := by
  decide

theorem send_char_letter (c : Char) (m : List Char) (h : Led) (hc : char_to_morse c = some m) :
    (send_char c h).trace = h.trace ++ (symbol_pulses m ++ [(false, 2 * DOT_MS)]) ∧
    (send_char c h).level = false ∧ c ≠ ' ' := by
  obtain ⟨s1, _, _, _, s5, _⟩ := table_codes_shape _ (char_lookup_mem c _ m hc)
  have hsp : c ≠ ' ' := s1
  have s5' : symbol_pulses m ≠ [] := s5
  have e : send_char c h =
      { level := false, trace := h.trace ++ (symbol_pulses m ++ [(false, 2 * DOT_MS)]) } := by
    simp [send_char, hsp, hc, send_symbols_eq, delay, s5']
  rw [e]
  exact ⟨rfl, rfl, hsp⟩

/-! ## The pulse train of a message and its samples -/

theorem send_char_eq (c : Char) (h : Led) (hl : h.level = false) :
    send_char c h = { level := false, trace := h.trace ++ char_pulses c } := by
  by_cases hsp : c = ' '
  · simp [send_char, char_pulses, hsp, delay, hl]
  · cases hc : char_to_morse c with
    | none =>
      simp only [send_char, char_pulses, hsp, hc, if_false, List.append_nil]
      cases h
      simp only [Led.mk.injEq, and_true]
      exact hl
    | some m =>
      obtain ⟨e1, e2, _⟩ := send_char_letter c m h hc
      simp only [char_pulses, hsp, hc, if_false]
      cases hs : send_char c h
      rw [hs] at e1 e2
      simp only at e1 e2
      rw [e1, e2]

theorem send_message_eq (msg : List Char) (h : Led) (hl : h.level = false) :
    send_message msg h = { level := false, trace := h.trace ++ message_pulses msg } := by
  induction msg generalizing h with
  | nil =>
    cases h
    simp only [send_message, message_pulses, List.append_nil, Led.mk.injEq, and_true]
    exact hl
  | cons c p ih =>
    rw [send_message, send_char_eq _ h hl, ih _ rfl]
    simp [message_pulses]

theorem pulse_train_eq (msg : List Char) :
    pulse_train msg = message_pulses msg ++ [(false, 7 * DOT_MS)] := by
  have h := send_message_eq msg led_start rfl
  simp only [pulse_train, send_repetition, delay, h]
  rfl

theorem sample_pulses_cons (l : Bool) (d : Nat) (rest : List (Bool × Nat)) :
    sample_pulses ((l, d) :: rest) = List.replicate (d / SAMPLE_PERIOD) l ++ sample_pulses rest :=
  rfl

theorem sample_pulses_append (a b : List (Bool × Nat)) :
    sample_pulses (a ++ b) = sample_pulses a ++ sample_pulses b := by
  induction a with
  | nil => rfl
  | cons x xs ih =>
    obtain ⟨l, d⟩ := x
    rw [List.cons_append, sample_pulses_cons, sample_pulses_cons, ih, List.append_assoc]

theorem sample_dot (m : List Char) (t : List (Bool × Nat)) :
    sample_pulses (symbol_pulses ('.' :: m) ++ t) =
      (List.replicate 20 true ++ List.replicate (19 + 1) false) ++
        sample_pulses (symbol_pulses m ++ t) := by
  simp only [symbol_pulses, if_true, List.cons_append, List.nil_append, sample_pulses,
    List.append_assoc]
  rfl

theorem sample_dash (m : List Char) (t : List (Bool × Nat)) :
    sample_pulses (symbol_pulses ('-' :: m) ++ t) =
      (List.replicate 60 true ++ List.replicate (19 + 1) false) ++
        sample_pulses (symbol_pulses m ++ t) := by
  have h : ¬ ('-' = '.') := by decide
  simp only [symbol_pulses, h, if_true, if_false, List.cons_append, List.nil_append,
    sample_pulses, List.append_assoc]
  rfl

/-! ## Decoding the samples of one character -/

theorem after_pulse_syms (s : LState) (n : Nat)
    (h : (lrising s).1.syms.length < MORSE_BUF_SIZE - 1) :
    (after_pulse s n).syms =
      (lrising s).1.syms ++ [if run_ms n < DOT_MAX then '.' else '-'] := by
  simp [after_pulse, lpush, h]

theorem lrising_short_gap (s : LState) (h : s.gap < LETTER_GAP_MIN) : lrising s = (s, []) := by
  have h1 : ¬ LETTER_GAP_MIN ≤ s.gap := by omega
  have h2 : ¬ WORD_GAP_MIN ≤ s.gap := by
    simp only [WORD_GAP_MIN, LETTER_GAP_MIN, UNIT_MS] at h ⊢; omega
  simp [lrising, h1, h2]

theorem sample_letter_end : sample_pulses [(false, 2 * DOT_MS)] = List.replicate 40 false := by
  rfl

theorem sample_word_gap : sample_pulses [(false, 7 * DOT_MS)] = List.replicate 140 false := by
  rfl

theorem lrun_symbol (P : List Char) (x : Char) (n : Nat) (s : LState)
    (hs : s.prev_on = false) (hn : 1 ≤ n)
    (hr : (lrising s).1.syms = P) (hP : P.length < MORSE_BUF_SIZE - 1)
    (hx : (if run_ms n < DOT_MAX then '.' else '-') = x) :
    lrun s (List.replicate n true ++ List.replicate (19 + 1) false) =
      (off_state 200 (P ++ [x]), (lrising s).2) := by
  rw [lrun_pulse_quiet s n 19 hs hn (by decide), after_pulse_syms s n (by rw [hr]; exact hP),
    hr, hx]
  rfl

theorem lrun_code_tail (rest P : List Char)
    (hlen : P.length + rest.length ≤ MORSE_BUF_SIZE - 1)
    (hv : ∀ x ∈ rest, x = '.' ∨ x = '-') :
    lrun (off_state 200 P) (sample_pulses (symbol_pulses rest ++ [(false, 2 * DOT_MS)])) =
      (off_state 600 (P ++ rest), []) := by
  induction rest generalizing P with
  | nil =>
    simp only [symbol_pulses, List.nil_append, sample_letter_end, List.append_nil]
    have h40 : add_samples 40 200 = 600 := by
      rw [add_samples_small 40 200 (by decide) (by decide)]
      decide
    rw [lrun_off_quiet 40 (off_state 200 P) rfl
      (Or.inr ⟨by show INT_MIN ≤ (200 : Int); decide,
        by show (200 : Int) + SAMPLE_MS * (40 : Nat) ≤ WORD_GAP_MIN * 2; decide⟩)]
    simp only [off_state, h40]
  | cons x xs ih =>
    have hP : P.length < MORSE_BUF_SIZE - 1 := by
      simp only [List.length_cons] at hlen; omega
    have hr : (lrising (off_state 200 P)).1.syms = P := by
      rw [lrising_short_gap _ (by show (200 : Int) < LETTER_GAP_MIN; decide)]; rfl
    have ho : (lrising (off_state 200 P)).2 = [] := by
      rw [lrising_short_gap _ (by show (200 : Int) < LETTER_GAP_MIN; decide)]
    have hxs : ∀ y ∈ xs, y = '.' ∨ y = '-' := fun y hy => hv y (by simp [hy])
    have hlen2 : (P ++ [x]).length + xs.length ≤ MORSE_BUF_SIZE - 1 := by
      simp only [List.length_cons, List.length_append, List.length_nil] at hlen ⊢; omega
    rcases hv x (by simp) with hx | hx
    · subst hx
      rw [sample_dot, lrun_append, lrun_symbol P '.' 20 _ rfl (by decide) hr hP
        (by rw [run_ms_dot]; decide)]
      simp only [ho, List.nil_append]
      rw [ih (P ++ ['.']) hlen2 hxs]
      simp
    · subst hx
      rw [sample_dash, lrun_append, lrun_symbol P '-' 60 _ rfl (by decide) hr hP
        (by rw [run_ms_dash]; decide)]
      simp only [ho, List.nil_append]
      rw [ih (P ++ ['-']) hlen2 hxs]
      simp

/-- The samples of one character's pulse train, from a state whose buffer is
empty after the rising edge: the rising edge prints what it prints, and the
buffer then holds the character's code with a 600 ms gap behind it. -/
theorem lrun_letter (m : List Char) (s : LState) (hs : s.prev_on = false)
    (hr : (lrising s).1.syms = []) (hne : m ≠ [])
    (hlen : m.length ≤ MORSE_BUF_SIZE - 1) (hv : ∀ x ∈ m, x = '.' ∨ x = '-') :
    lrun s (sample_pulses (symbol_pulses m ++ [(false, 2 * DOT_MS)])) =
      (off_state 600 m, (lrising s).2) := by
  cases m with
  | nil => exact absurd rfl hne
  | cons x xs =>
    have hxs : ∀ y ∈ xs, y = '.' ∨ y = '-' := fun y hy => hv y (by simp [hy])
    have hlen2 : ([x] : List Char).length + xs.length ≤ MORSE_BUF_SIZE - 1 := by
      simp only [List.length_cons, List.length_nil] at hlen ⊢; omega
    rcases hv x (by simp) with hx | hx
    · subst hx
      rw [sample_dot, lrun_append, lrun_symbol [] '.' 20 s hs (by decide) hr (by decide)
        (by rw [run_ms_dot]; decide)]
      simp only [List.nil_append]
      rw [lrun_code_tail xs ['.'] hlen2 hxs]
      simp
    · subst hx
      rw [sample_dash, lrun_append, lrun_symbol [] '-' 60 s hs (by decide) hr (by decide)
        (by rw [run_ms_dash]; decide)]
      simp only [List.nil_append]
      rw [lrun_code_tail xs ['-'] hlen2 hxs]
      simp

/-! ## Decoding the samples of a message -/

theorem supported_letter (c : Char) (hs : supported c) (hsp : c ≠ ' ') :
    upcase c ≠ ' ' ∧ ∃ m, char_to_morse (upcase c) = some m ∧ morse_to_char m = upcase c := by
  have key : ∀ (lo hi : Nat), lo ≤ c.toNat → c.toNat ≤ hi →
      (∀ n, lo ≤ n → n ≤ hi → upcase (Char.ofNat n) ≠ ' ' ∧
        (char_to_morse (upcase (Char.ofNat n))).map morse_to_char
          = some (upcase (Char.ofNat n))) →
      upcase c ≠ ' ' ∧ ∃ m, char_to_morse (upcase c) = some m ∧ morse_to_char m = upcase c := by
    intro lo hi h1 h2 hall
    have e : c = Char.ofNat c.toNat := (Char.ofNat_toNat c).symm
    rw [e]
    obtain ⟨a, b⟩ := hall _ h1 h2
    exact ⟨a, Option.map_eq_some'.mp b⟩
  rcases hs with h | ⟨h1, h2⟩ | ⟨h1, h2⟩ | ⟨h1, h2⟩
  · exact absurd h hsp
  · refine key 65 90 h1 h2 ?_
    intro n hl hh
    interval_cases n <;> decide
  · refine key 97 122 h1 h2 ?_
    intro n hl hh
    interval_cases n <;> decide
  · refine key 48 57 h1 h2 ?_
    intro n hl hh
    interval_cases n <;> decide

theorem tail_samples_nil (k : Nat) : tail_samples k [] = List.replicate (140 + k) false := by
  simp only [tail_samples, message_pulses, List.nil_append, sample_word_gap]
  rw [List.replicate_add]

theorem tail_samples_space (k : Nat) (rest : List Char) :
    tail_samples k (' ' :: rest) = List.replicate 140 false ++ tail_samples k rest := by
  have h : char_pulses (upcase ' ') = [(false, 7 * DOT_MS)] := by decide
  simp only [tail_samples, message_pulses, h, sample_pulses_append, sample_word_gap,
    List.append_assoc]

theorem tail_samples_letter (k : Nat) (c : Char) (rest m : List Char)
    (hsp : upcase c ≠ ' ') (hm : char_to_morse (upcase c) = some m) :
    tail_samples k (c :: rest) =
      sample_pulses (symbol_pulses m ++ [(false, 2 * DOT_MS)]) ++ tail_samples k rest := by
  have h : char_pulses (upcase c) = symbol_pulses m ++ [(false, 2 * DOT_MS)] := by
    simp [char_pulses, hsp, hm]
  simp only [tail_samples, message_pulses, h, sample_pulses_append, List.append_assoc]

theorem lrun_append_out (a b : List Bool) (s : LState) :
    (lrun s (a ++ b)).2 = (lrun s a).2 ++ (lrun (lrun s a).1 b).2 := by
  rw [lrun_append]

theorem lrising_empty (s : LState) (h : s.syms = []) :
    lrising s = (s, if WORD_GAP_MIN ≤ s.gap then [' '] else []) := by
  by_cases h1 : WORD_GAP_MIN ≤ s.gap
  · have h2 : ¬ s.gap < LETTER_GAP_MAX := by
      simp only [WORD_GAP_MIN, LETTER_GAP_MAX, UNIT_MS] at h1 ⊢; omega
    simp [lrising, h, h1, h2]
  · simp [lrising, h, h1]

theorem lrising_letter_gap (s : LState) (h : s.syms ≠ [])
    (h1 : LETTER_GAP_MIN ≤ s.gap) (h2 : s.gap < LETTER_GAP_MAX) :
    lrising s = ({ s with syms := [] }, [morse_to_char s.syms]) := by
  have hl : s.syms.length > 0 := List.length_pos.mpr h
  simp [lrising, h1, h2, hl]

theorem lrising_word_gap (s : LState) (h : s.syms ≠ []) (h1 : WORD_GAP_MIN ≤ s.gap) :
    lrising s = ({ s with syms := [] }, [morse_to_char s.syms, ' ']) := by
  have hl : s.syms.length > 0 := List.length_pos.mpr h
  have h2 : ¬ s.gap < LETTER_GAP_MAX := by
    simp only [WORD_GAP_MIN, LETTER_GAP_MAX, UNIT_MS] at h1 ⊢; omega
  simp [lrising, h1, h2, hl]

theorem code_shape (c : Char) (m : List Char) (h : char_to_morse c = some m) :
    m ≠ [] ∧ m.length ≤ MORSE_BUF_SIZE - 1 ∧ ∀ x ∈ m, x = '.' ∨ x = '-' := by
  obtain ⟨_, s2, s3, s4, _⟩ := table_codes_shape _ (char_lookup_mem c _ m h)
  refine ⟨s2, ?_, s4⟩
  have s3' : m.length ≤ 5 := s3
  simp only [MORSE_BUF_SIZE]
  omega

theorem expected_from_space (st : Bool) (j : Nat) (rest : List Char) :
    expected_from st j (' ' :: rest) = expected_from st (j + 1) rest := by
  simp [expected_from]

theorem expected_from_letter (st : Bool) (j : Nat) (c : Char) (rest : List Char)
    (hsp : c ≠ ' ') :
    expected_from st j (c :: rest) =
      (if st then (if j = 0 then [] else if j = 1 then [' '] else [' ', ' '])
       else (if j = 0 then [] else [' '])) ++ upcase c :: expected_from true 0 rest := by
  simp [expected_from, hsp]

theorem add_samples_space (g : Int) (h1 : 0 ≤ g) (h2 : g + 1400 ≤ INT_MAX) :
    add_samples 140 g = g + 1400 := by
  rw [add_samples_small 140 g (by simp only [INT_MIN]; omega)
    (by simp only [SAMPLE_MS]; push_cast; omega)]
  simp only [SAMPLE_MS]
  push_cast
  ring

/-- The decoder on the samples of the rest of a message, in the three
situations it can be in between two characters of the message: no letter
seen yet; a letter pending in the buffer, at most one space after it; a
letter already flushed by the stall flush, two or more spaces after it. The
bound on the length keeps every gap of the message below `INT_MAX`. -/
theorem decode_tail (k : Nat) (hk : 1 ≤ k) (msg : List Char)
    (hv : ∀ c ∈ msg, supported c) :
    (∀ (j : Nat) (d g : Int), g = 1400 * j →
      600 + 1400 * ((j : Int) + msg.length) ≤ INT_MAX →
      (lrun { prev_on := false, dur := d, gap := g, syms := [] } (tail_samples k msg)).2
        = expected_from false j msg) ∧
    (∀ (j : Nat) (p : Char) (m : List Char) (d g : Int), j ≤ 1 → g = 600 + 1400 * j →
      600 + 1400 * ((j : Int) + msg.length) ≤ INT_MAX →
      char_to_morse p = some m → morse_to_char m = p →
      (lrun { prev_on := false, dur := d, gap := g, syms := m } (tail_samples k msg)).2
        = p :: expected_from true j msg) ∧
    (∀ (j : Nat) (d g : Int), 2 ≤ j → g = 600 + 1400 * j →
      600 + 1400 * ((j : Int) + msg.length) ≤ INT_MAX →
      ' ' :: (lrun { prev_on := false, dur := d, gap := g, syms := [] } (tail_samples k msg)).2
        = expected_from true j msg) := by
  induction msg with
  | nil =>
    refine ⟨?_, ?_, ?_⟩
    · intro j d g _ _
      rw [tail_samples_nil, lrun_off_quiet _ { prev_on := false, dur := d, gap := g, syms := [] } rfl (Or.inl rfl)]
      simp [expected_from]
    · intro j p m d g hj hg hb hpm hdec
      have hne := (code_shape p m hpm).1
      rw [tail_samples_nil, lrun_off_flush (140 + k) { prev_on := false, dur := d, gap := g, syms := m } rfl (List.length_pos.mpr hne)
        (by omega)
        (by simp only [INT_MIN]; omega)
        (by simp only [SAMPLE_MS, INT_MAX]; omega)
        (by simp only [SAMPLE_MS, WORD_GAP_MIN, UNIT_MS]; push_cast; omega)]
      simp [expected_from, hdec]
    · intro j d g _ _ _
      rw [tail_samples_nil, lrun_off_quiet _ { prev_on := false, dur := d, gap := g, syms := [] } rfl (Or.inl rfl)]
      simp [expected_from]
  | cons c rest ih =>
    obtain ⟨ihA, ihB, ihC⟩ := ih (fun x hx => hv x (by simp [hx]))
    have hlen : (((c :: rest).length : Nat) : Int) = (rest.length : Int) + 1 := by
      simp only [List.length_cons]; push_cast; ring
    by_cases hsp : c = ' '
    · subst hsp
      refine ⟨?_, ?_, ?_⟩
      · intro j d g hg hb
        rw [hlen] at hb
        have hstep := add_samples_space g (by omega) (by simp only [INT_MAX] at hb ⊢; omega)
        rw [tail_samples_space, lrun_append_out, lrun_off_quiet 140 { prev_on := false, dur := d, gap := g, syms := [] } rfl (Or.inl rfl),
          expected_from_space]
        simp only [List.nil_append]
        rw [ihA (j + 1) _ _ (by rw [hstep, hg]; push_cast; ring)
          (by simp only [INT_MAX] at hb ⊢; push_cast; omega)]
      · intro j p m d g hj hg hb hpm hdec
        rw [hlen] at hb
        have hne := (code_shape p m hpm).1
        have hstep := add_samples_space g (by omega) (by simp only [INT_MAX] at hb ⊢; omega)
        rw [tail_samples_space, lrun_append_out, expected_from_space]
        rcases Nat.eq_zero_or_pos j with h0 | h0
        · subst h0
          rw [lrun_off_quiet 140 { prev_on := false, dur := d, gap := g, syms := m } rfl
            (Or.inr ⟨by simp only [INT_MIN]; omega,
              by simp only [SAMPLE_MS, WORD_GAP_MIN, UNIT_MS]; push_cast; omega⟩)]
          simp only [List.nil_append]
          rw [ihB 1 p m _ _ (le_refl 1) (by rw [hstep, hg]; norm_num)
            (by simp only [INT_MAX] at hb ⊢; push_cast; omega) hpm hdec]
        · have h1 : j = 1 := by omega
          subst h1
          rw [lrun_off_flush 140 { prev_on := false, dur := d, gap := g, syms := m } rfl (List.length_pos.mpr hne) (by decide)
            (by simp only [INT_MIN]; omega)
            (by simp only [SAMPLE_MS, INT_MAX]; omega)
            (by simp only [SAMPLE_MS, WORD_GAP_MIN, UNIT_MS]; push_cast; omega)]
          simp only [hdec, List.cons_append, List.nil_append]
          rw [ihC 2 _ _ (le_refl 2) (by rw [hstep, hg]; norm_num)
            (by simp only [INT_MAX] at hb ⊢; push_cast; omega)]
      · intro j d g hj hg hb
        rw [hlen] at hb
        have hstep := add_samples_space g (by omega) (by simp only [INT_MAX] at hb ⊢; omega)
        rw [tail_samples_space, lrun_append_out, lrun_off_quiet 140 { prev_on := false, dur := d, gap := g, syms := [] } rfl (Or.inl rfl),
          expected_from_space]
        simp only [List.nil_append]
        rw [ihC (j + 1) _ _ (by omega) (by rw [hstep, hg]; push_cast; ring)
          (by simp only [INT_MAX] at hb ⊢; push_cast; omega)]
    · obtain ⟨hup, mc, hmc, hdc⟩ := supported_letter c (hv c (by simp)) hsp
      obtain ⟨cne, clen, cv⟩ := code_shape _ mc hmc
      have tailB : 600 + 1400 * (((0 : Nat) : Int) + rest.length) ≤ INT_MAX →
          ∀ s : LState, s.prev_on = false → (lrising s).1.syms = [] →
          (lrun s (tail_samples k (c :: rest))).2
            = (lrising s).2 ++ upcase c :: expected_from true 0 rest := by
        intro hb0 s hs hr
        rw [tail_samples_letter k c rest mc hup hmc, lrun_append_out,
          lrun_letter mc s hs hr cne clen cv]
        simp only [off_state]
        rw [ihB 0 (upcase c) mc 600 600 (by decide) (by decide) hb0 hmc hdc]
      have hb0 : ∀ j : Nat, 600 + 1400 * ((j : Int) + (((c :: rest).length : Nat) : Int))
          ≤ INT_MAX → 600 + 1400 * (((0 : Nat) : Int) + rest.length) ≤ INT_MAX := by
        intro j hb
        rw [hlen] at hb
        simp only [INT_MAX] at hb ⊢
        push_cast
        omega
      refine ⟨?_, ?_, ?_⟩
      · intro j d g hg hb
        rw [tailB (hb0 j hb) { prev_on := false, dur := d, gap := g, syms := [] } rfl (by rw [lrising_empty { prev_on := false, dur := d, gap := g, syms := [] } rfl]),
          lrising_empty { prev_on := false, dur := d, gap := g, syms := [] } rfl,
          expected_from_letter _ _ _ _ hsp]
        rcases Nat.eq_zero_or_pos j with h0 | h0
        · subst h0
          have hw : ¬ WORD_GAP_MIN ≤ g := by
            simp only [WORD_GAP_MIN, UNIT_MS]; push_cast at hg; omega
          simp [hw]
        · have hw : WORD_GAP_MIN ≤ g := by
            simp only [WORD_GAP_MIN, UNIT_MS]; omega
          have hj : j ≠ 0 := by omega
          simp [hw, hj]
      · intro j p m d g hj hg hb hpm hdec
        have hne := (code_shape p m hpm).1
        rw [expected_from_letter _ _ _ _ hsp]
        rcases Nat.eq_zero_or_pos j with h0 | h0
        · subst h0
          have hl := lrising_letter_gap
            { prev_on := false, dur := d, gap := g, syms := m } hne
            (by simp only [LETTER_GAP_MIN, UNIT_MS]; push_cast at hg; omega)
            (by simp only [LETTER_GAP_MAX, UNIT_MS]; push_cast at hg; omega)
          rw [tailB (hb0 0 hb) { prev_on := false, dur := d, gap := g, syms := m } rfl (by rw [hl]), hl]
          simp [hdec]
        · have h1 : j = 1 := by omega
          subst h1
          have hl := lrising_word_gap
            { prev_on := false, dur := d, gap := g, syms := m } hne
            (by simp only [WORD_GAP_MIN, UNIT_MS]; push_cast at hg; omega)
          rw [tailB (hb0 1 hb) { prev_on := false, dur := d, gap := g, syms := m } rfl (by rw [hl]), hl]
          simp [hdec]
      · intro j d g hj hg hb
        rw [tailB (hb0 j hb) { prev_on := false, dur := d, gap := g, syms := [] } rfl (by rw [lrising_empty { prev_on := false, dur := d, gap := g, syms := [] } rfl]),
          lrising_empty { prev_on := false, dur := d, gap := g, syms := [] } rfl,
          expected_from_letter _ _ _ _ hsp]
        have hw : WORD_GAP_MIN ≤ g := by
          simp only [WORD_GAP_MIN, UNIT_MS]; omega
        have hj0 : j ≠ 0 := by omega
        have hj1 : j ≠ 1 := by omega
        simp [hw, hj0, hj1]

theorem expected_single_spaced (msg : List Char) (j : Nat) (hj : j ≤ 1)
    (h : single_spaced_from (decide (j = 1)) msg = true) :
    expected_from true j msg =
      (if j = 1 then [' '] else []) ++ (msg.map upcase ++ [' ']) := by
  induction msg generalizing j with
  | nil =>
    have h0 : j = 0 := by
      rcases Nat.eq_zero_or_pos j with h0 | h0
      · exact h0
      · have h1 : j = 1 := by omega
        subst h1
        simp [single_spaced_from] at h
    subst h0
    simp [expected_from]
  | cons c rest ih =>
    by_cases hsp : c = ' '
    · subst hsp
      simp only [single_spaced_from, if_true, Bool.and_eq_true, Bool.not_eq_true',
        decide_eq_false_iff_not] at h
      have h0 : j = 0 := by omega
      subst h0
      rw [expected_from_space, ih 1 (le_refl 1) h.2]
      have hu : upcase ' ' = ' ' := by decide
      simp [hu]
    · simp only [single_spaced_from, hsp, if_false] at h
      rw [expected_from_letter _ _ _ _ hsp, ih 0 (by decide) h]
      rcases Nat.eq_zero_or_pos j with h0 | h0
      · subst h0; simp
      · have h1 : j = 1 := by omega
        subst h1; simp

theorem expected_output_single_spaced (msg : List Char) (h : single_spaced msg = true) :
    expected_output msg = msg.map upcase ++ [' '] := by
  cases msg with
  | nil => simp [single_spaced, single_spaced_from] at h
  | cons c rest =>
    by_cases hsp : c = ' '
    · subst hsp
      simp [single_spaced, single_spaced_from] at h
    · simp only [single_spaced, single_spaced_from, hsp, if_false] at h
      rw [expected_output, expected_from_letter _ _ _ _ hsp, expected_single_spaced rest 0 (by decide) h]
      simp

/-- The decoder's output for the ideally sampled pulse train of a message
followed by `k ≥ 1` further off samples. -/
theorem decoded_message (msg : List Char) (buf0 : Buf) (k : Nat)
    (hv : ∀ c ∈ msg, supported c) (hk : 1 ≤ k)
    (hlen : 3 * (DOT_MS : Int) + 7 * (DOT_MS : Int) * msg.length ≤ INT_MAX) :
    (run (init buf0) (sample_pulses (pulse_train msg) ++ List.replicate k false)).2
      = expected_output msg := by
  rw [(run_init_agree buf0 _).2.1, pulse_train_eq]
  refine (decode_tail k hk msg hv).1 0 0 0 (by simp) ?_
  simp only [DOT_MS, INT_MAX] at hlen ⊢
  push_cast at hlen ⊢
  omega

/-! ## Upper-casing and skipped characters -/

theorem upcase_lower (c : Char) (h : 'a' ≤ c ∧ c ≤ 'z') :
    ('A' ≤ upcase c ∧ upcase c ≤ 'Z') ∧ upcase c ≠ ' ' ∧ ¬ ('a' ≤ upcase c ∧ upcase c ≤ 'z') := by
  obtain ⟨h1, h2⟩ := h
  have e : c = Char.ofNat c.toNat := (Char.ofNat_toNat c).symm
  have h1' : 97 ≤ c.toNat := h1
  have h2' : c.toNat ≤ 122 := h2
  generalize c.toNat = n at e h1' h2'
  subst e
  interval_cases n <;> decide

theorem upcase_not_lower (c : Char) (h : ¬ ('a' ≤ c ∧ c ≤ 'z')) : upcase c = c := by
  simp only [upcase, h, if_false]

theorem upcase_idem (c : Char) : upcase (upcase c) = upcase c := by
  by_cases h : 'a' ≤ c ∧ c ≤ 'z'
  · exact upcase_not_lower _ (upcase_lower c h).2.2
  · rw [upcase_not_lower c h, upcase_not_lower c h]

theorem upcase_eq_space (c : Char) : upcase c = ' ' ↔ c = ' ' := by
  by_cases h : 'a' ≤ c ∧ c ≤ 'z'
  · constructor
    · intro hc
      exact absurd hc (upcase_lower c h).2.1
    · intro hc
      subst hc
      decide
  · rw [upcase_not_lower c h]

theorem send_char_skipped (c : Char) (h : Led) (hc : encodable c = false) :
    send_char (upcase c) h = h := by
  simp only [encodable, Bool.or_eq_false_iff, decide_eq_false_iff_not] at hc
  have hsp : upcase c ≠ ' ' := fun hu => hc.1 ((upcase_eq_space c).mp hu)
  have hn : char_to_morse (upcase c) = none := by
    cases hm : char_to_morse (upcase c) with
    | none => rfl
    | some m => rw [hm] at hc; exact absurd hc.2 (by simp)
  simp [send_char, hsp, hn]

theorem send_message_filter (msg : List Char) (h : Led) :
    send_message (msg.filter encodable) h = send_message msg h := by
  induction msg generalizing h with
  | nil => rfl
  | cons c p ih =>
    cases hc : encodable c
    · rw [List.filter_cons_of_neg (by simp [hc]), ih, send_message,
        send_char_skipped c h hc]
    · rw [List.filter_cons_of_pos (by simp [hc]), send_message, send_message, ih]

theorem send_message_upcase (msg : List Char) (h : Led) :
    send_message (msg.map upcase) h = send_message msg h := by
  induction msg generalizing h with
  | nil => rfl
  | cons c p ih =>
    rw [List.map_cons, send_message, send_message, upcase_idem, ih]

/-! ## Invariants of the sampling loop -/

theorem loop_run_eq_run (threshold : Int) (reads : List (Option Int)) (s : DecoderState) :
    loop_run threshold s reads = run s (samples_of_reads threshold reads) := by
  induction reads generalizing s with
  | nil => rfl
  | cons r rest ih =>
    cases r with
    | none =>
      simp only [loop_run, loop_iter, samples_of_reads, List.nil_append]
      exact ih s
    | some raw =>
      simp only [loop_run, loop_iter, samples_of_reads, run]
      rw [ih]

theorem tick_output_shape (s : DecoderState) (b : Bool) :
    (tick s b).2 = [] ∨ (tick s b).2 = [morse_to_char (cstr s.morse_buf)] ∨
    (tick s b).2 = [morse_to_char (cstr s.morse_buf), ' '] ∨ (tick s b).2 = [' '] := by
  cases hp : s.prev_on <;> cases b
  · rw [tick_off_same s hp]
    split_ifs <;> simp
  · rw [tick_rise s hp]
    simp only [rising_edge]
    split_ifs <;> simp
  · rw [tick_fall s hp]
    simp
  · rw [tick_on_same s hp]
    simp

theorem morse_to_char_output (code : List Char) : output_char (morse_to_char code) := by
  have hall : ∀ e ∈ morse_table, output_char e.letter := by decide
  rcases morse_lookup_range code morse_table with h | ⟨e, he, _, h⟩
  · have : morse_to_char code = '?' := h
    rw [this]
    decide
  · have : morse_to_char code = e.letter := h
    rw [this]
    exact hall e he

theorem tick_output_chars (s : DecoderState) (b : Bool) (c : Char) (hc : c ∈ (tick s b).2) :
    output_char c := by
  have hsp : output_char ' ' := by decide
  rcases tick_output_shape s b with h | h | h | h <;> rw [h] at hc
  · simp at hc
  · simp only [List.mem_singleton] at hc
    rw [hc]; exact morse_to_char_output _
  · simp only [List.mem_cons, List.mem_singleton, List.mem_nil_iff, or_false] at hc
    rcases hc with hc | hc
    · rw [hc]; exact morse_to_char_output _
    · rw [hc]; exact hsp
  · simp only [List.mem_singleton] at hc
    rw [hc]; exact hsp

theorem run_output_chars (samples : List Bool) (s : DecoderState) (c : Char)
    (hc : c ∈ (run s samples).2) : output_char c := by
  induction samples generalizing s with
  | nil => simp [run] at hc
  | cons b rest ih =>
    rw [run_cons] at hc
    simp only [List.mem_append] at hc
    rcases hc with hc | hc
    · exact tick_output_chars s b c hc
    · exact ih _ hc

theorem output_char_not_lower (c : Char) (h : output_char c) : ¬ ('a' ≤ c ∧ c ≤ 'z') := by
  rintro ⟨h1, h2⟩
  have h1' : 97 ≤ c.toNat := h1
  have h2' : c.toNat ≤ 122 := h2
  rcases h with ⟨_, h4⟩ | ⟨_, h4⟩ | h | h
  · have h4' : c.toNat ≤ 90 := h4
    omega
  · have h4' : c.toNat ≤ 57 := h4
    omega
  · subst h
    exact absurd h1' (by decide)
  · subst h
    exact absurd h1' (by decide)

theorem run_wellFormed (samples : List Bool) (s : DecoderState) (hw : WellFormed s) :
    WellFormed (run s samples).1 :=
  (run_refines samples s hw).2.2

theorem tick_prev_on (s : DecoderState) (b : Bool) : (tick s b).1.prev_on = b := by
  cases hp : s.prev_on <;> cases b
  · rw [tick_off_same s hp]
    split_ifs <;> exact hp
  · rw [tick_rise s hp]
  · rw [tick_fall s hp]
  · rw [tick_on_same s hp]
    exact hp

theorem tick_gap_eq_dur (s : DecoderState) (b : Bool)
    (h : s.prev_on = false → s.gap_ms = s.state_duration_ms)
    (hb : (tick s b).1.prev_on = false) :
    (tick s b).1.gap_ms = (tick s b).1.state_duration_ms := by
  rw [tick_prev_on] at hb
  subst hb
  cases hp : s.prev_on
  · rw [tick_off_same s hp]
    have e := h hp
    split_ifs <;> simp only [e]
  · rw [tick_fall s hp]

theorem run_gap_eq_dur (samples : List Bool) (s : DecoderState)
    (h : s.prev_on = false → s.gap_ms = s.state_duration_ms)
    (hb : (run s samples).1.prev_on = false) :
    (run s samples).1.gap_ms = (run s samples).1.state_duration_ms := by
  induction samples generalizing s with
  | nil => exact h hb
  | cons b rest ih =>
    rw [run_cons] at hb ⊢
    exact ih (tick s b).1 (tick_gap_eq_dur s b h) hb

/-- A tick leaves both `int` counters within `[INT_MIN, INT_MAX]`. -/
theorem tick_int_range (s : DecoderState) (b : Bool)
    (hg : INT_MIN ≤ s.gap_ms ∧ s.gap_ms ≤ INT_MAX) :
    (INT_MIN ≤ (tick s b).1.state_duration_ms ∧ (tick s b).1.state_duration_ms ≤ INT_MAX) ∧
    (INT_MIN ≤ (tick s b).1.gap_ms ∧ (tick s b).1.gap_ms ≤ INT_MAX) := by
  have hS : INT_MIN ≤ SAMPLE_MS ∧ SAMPLE_MS ≤ INT_MAX := by decide
  cases hp : s.prev_on <;> cases b
  · rw [tick_off_same s hp]
    split_ifs <;> exact ⟨wrap_int_range _, wrap_int_range _⟩
  · have e : (rising_edge s).1.gap_ms = s.gap_ms := by
      simp only [rising_edge]
      split_ifs <;> rfl
    rw [tick_rise s hp]
    refine ⟨hS, ?_⟩
    show INT_MIN ≤ (rising_edge s).1.gap_ms ∧ (rising_edge s).1.gap_ms ≤ INT_MAX
    rw [e]
    exact hg
  · rw [tick_fall s hp]
    exact ⟨hS, hS⟩
  · rw [tick_on_same s hp]
    exact ⟨wrap_int_range _, hg⟩

/-- In every state the decoder reaches from its initial state, both
counters hold `int` values. -/
theorem run_int_range (buf0 : Buf) (samples : List Bool) :
    (INT_MIN ≤ (run (init buf0) samples).1.state_duration_ms ∧
      (run (init buf0) samples).1.state_duration_ms ≤ INT_MAX) ∧
    (INT_MIN ≤ (run (init buf0) samples).1.gap_ms ∧
      (run (init buf0) samples).1.gap_ms ≤ INT_MAX) := by
  have key : ∀ (l : List Bool) (s : DecoderState),
      ((INT_MIN ≤ s.state_duration_ms ∧ s.state_duration_ms ≤ INT_MAX) ∧
        (INT_MIN ≤ s.gap_ms ∧ s.gap_ms ≤ INT_MAX)) →
      (INT_MIN ≤ (run s l).1.state_duration_ms ∧ (run s l).1.state_duration_ms ≤ INT_MAX) ∧
      (INT_MIN ≤ (run s l).1.gap_ms ∧ (run s l).1.gap_ms ≤ INT_MAX) := by
    intro l
    induction l with
    | nil => intro s h; exact h
    | cons b rest ih =>
      intro s h
      rw [run_cons]
      exact ih (tick s b).1 (tick_int_range s b h.2)
  have h0 : (INT_MIN ≤ (0 : Int) ∧ (0 : Int) ≤ INT_MAX) ∧
      (INT_MIN ≤ (0 : Int) ∧ (0 : Int) ≤ INT_MAX) := by decide
  exact key samples (init buf0) h0

theorem run_off_gap (n : Nat) (s : DecoderState) (hp : s.prev_on = false) :
    (run s (List.replicate n false)).1.prev_on = false ∧
    (run s (List.replicate n false)).1.gap_ms = add_samples n s.gap_ms ∧
    (run s (List.replicate n false)).1.state_duration_ms
      = add_samples n s.state_duration_ms := by
  induction n generalizing s with
  | zero => simp [run, hp, add_samples]
  | succ k ih =>
    rw [List.replicate_succ, run_cons]
    have hp2 : (tick s false).1.prev_on = false := tick_prev_on s false
    have hg : (tick s false).1.gap_ms = int_add s.gap_ms SAMPLE_MS := by
      rw [tick_off_same s hp]; split_ifs <;> rfl
    have hd : (tick s false).1.state_duration_ms = int_add s.state_duration_ms SAMPLE_MS := by
      rw [tick_off_same s hp]; split_ifs <;> rfl
    obtain ⟨a, b, c⟩ := ih (tick s false).1 hp2
    refine ⟨a, ?_, ?_⟩
    · rw [b, hg]; rfl
    · rw [c, hd]; rfl

/-- An off run of `k ≥ 1` samples that ends an on run: the gap measured is
the run counter of `k` samples, the first off sample included. -/
theorem run_off_after_on (k : Nat) (s : DecoderState) (hp : s.prev_on = true) (hk : 1 ≤ k) :
    (run s (List.replicate k false)).1.prev_on = false ∧
    (run s (List.replicate k false)).1.gap_ms = run_ms k ∧
    (run s (List.replicate k false)).1.state_duration_ms = run_ms k := by
  obtain ⟨m, rfl⟩ : ∃ m, k = m + 1 := ⟨k - 1, by omega⟩
  rw [List.replicate_succ, run_cons]
  have hp2 : (tick s false).1.prev_on = false := tick_prev_on s false
  have hg : (tick s false).1.gap_ms = SAMPLE_MS := by rw [tick_fall s hp]
  have hd : (tick s false).1.state_duration_ms = SAMPLE_MS := by rw [tick_fall s hp]
  obtain ⟨a, b, c⟩ := run_off_gap m (tick s false).1 hp2
  refine ⟨a, ?_, ?_⟩
  · rw [b, hg]; rfl
  · rw [c, hd]; rfl

theorem samples_of_reads_append (threshold : Int) (a b : List (Option Int)) :
    samples_of_reads threshold (a ++ b)
      = samples_of_reads threshold a ++ samples_of_reads threshold b := by
  induction a with
  | nil => rfl
  | cons r rest ih =>
    cases r with
    | none => simpa [samples_of_reads] using ih
    | some raw => simp [samples_of_reads, ih]

theorem wellFormed_spelled (s : DecoderState) (hw : WellFormed s) :
    s.morse_len ≤ MORSE_BUF_SIZE - 1 ∧
    (0 < s.morse_len →
      (∀ i, i < s.morse_len →
        s.morse_buf.val.get? i = some '.' ∨ s.morse_buf.val.get? i = some '-') ∧
      s.morse_buf.val.get? s.morse_len = some NUL ∧
      cstr s.morse_buf = pending s) ∧
    (s.morse_len < MORSE_BUF_SIZE - 1 → s.morse_len + 1 < s.morse_buf.val.length) := by
  obtain ⟨h1, h2, h3⟩ := hw
  have hb := s.morse_buf.property
  refine ⟨h1, ?_, ?_⟩
  · intro hpos
    refine ⟨?_, h3 hpos, cstr_eq_pending s ⟨h1, h2, h3⟩ hpos⟩
    intro i hi
    have hil : i < s.morse_buf.val.length := by
      simp only [MORSE_BUF_SIZE] at h1 hb; omega
    have hget : (s.morse_buf.val.take s.morse_len).get? i = s.morse_buf.val.get? i := by
      rw [List.get?_eq_getElem?, List.get?_eq_getElem?, List.getElem?_take_of_lt hi]
    have hsome : s.morse_buf.val.get? i = some (s.morse_buf.val.get ⟨i, hil⟩) :=
      List.get?_eq_get hil
    have hmem : s.morse_buf.val.get ⟨i, hil⟩ ∈ pending s := by
      unfold pending
      exact List.get?_mem (by rw [hget, hsome])
    rcases h2 _ hmem with h | h
    · left; rw [hsome, h]
    · right; rw [hsome, h]
  · intro hlt
    simp only [MORSE_BUF_SIZE] at hlt hb
    omega

/-! ## Repetitions, stall flush before a rising edge, leading silence -/

theorem send_repetition_eq (msg : List Char) (h : Led) (hl : h.level = false) :
    send_repetition msg h = { level := false, trace := h.trace ++ pulse_train msg } := by
  rw [pulse_train_eq]
  simp only [send_repetition, send_message_eq msg h hl, delay, List.append_assoc]

theorem send_repetitions_eq (r : Nat) (msg : List Char) (h : Led) (hl : h.level = false) :
    send_repetitions r msg h
      = { level := false, trace := h.trace ++ repeat_train r (pulse_train msg) } := by
  induction r generalizing h with
  | zero =>
    cases h
    simp only [send_repetitions, repeat_train, List.append_nil, Led.mk.injEq, and_true]
    exact hl
  | succ k ih =>
    rw [send_repetitions, send_repetition_eq msg h hl, ih _ rfl]
    simp only [repeat_train, List.append_assoc]

/-- An off run that crosses the stall threshold with symbols buffered, and
the rising edge that ends it: the off run prints the character and a space,
the rising edge a second space when the gap counter it reads is at least
`WORD_GAP_MIN`. -/
theorem lrun_stall_then_rise (s : LState) (n : Nat) (hp : s.prev_on = false)
    (hs : s.syms.length > 0) (hn : 1 ≤ n)
    (hlo : INT_MIN ≤ s.gap) (hhi : s.gap + SAMPLE_MS ≤ INT_MAX)
    (hg : s.gap + SAMPLE_MS * n > WORD_GAP_MIN * 2) :
    (lrun s (List.replicate n false)).2 = [morse_to_char s.syms, ' '] ∧
    (ltick (lrun s (List.replicate n false)).1 true).2
      = (if WORD_GAP_MIN ≤ add_samples n s.gap then [' '] else []) ∧
    (lrun s (List.replicate n false ++ [true])).2
      = [morse_to_char s.syms, ' ']
          ++ (if WORD_GAP_MIN ≤ add_samples n s.gap then [' '] else []) := by
  have hrun := lrun_off_flush n s hp hs hn hlo hhi hg
  have htick : (ltick (lrun s (List.replicate n false)).1 true).2
      = (if WORD_GAP_MIN ≤ add_samples n s.gap then [' '] else []) := by
    rw [hrun]
    simp only
    rw [ltick_rise { s with dur := add_samples n s.dur, gap := add_samples n s.gap,
                            syms := [] } hp,
      lrising_empty { s with dur := add_samples n s.dur, gap := add_samples n s.gap,
                             syms := [] } rfl]
  refine ⟨by rw [hrun], htick, ?_⟩
  rw [lrun_append_out, lrun_cons]
  simp only [lrun, List.append_nil]
  rw [htick, hrun]

theorem run_stall_then_rise (t : DecoderState) (n : Nat) (hw : WellFormed t)
    (hp : t.prev_on = false) (hl : 0 < t.morse_len) (hn : 1 ≤ n)
    (hlo : INT_MIN ≤ t.gap_ms) (hhi : t.gap_ms + SAMPLE_MS ≤ INT_MAX)
    (hg : t.gap_ms + SAMPLE_MS * n > WORD_GAP_MIN * 2) :
    (run t (List.replicate n false)).2 = [morse_to_char (cstr t.morse_buf), ' '] ∧
    (tick (run t (List.replicate n false)).1 true).2
      = (if WORD_GAP_MIN ≤ add_samples n t.gap_ms then [' '] else []) ∧
    (run t (List.replicate n false ++ [true])).2
      = [morse_to_char (cstr t.morse_buf), ' ']
          ++ (if WORD_GAP_MIN ≤ add_samples n t.gap_ms then [' '] else []) := by
  have hlen : (view t).syms.length > 0 := by
    rw [← morse_len_of_view t hw]; exact hl
  obtain ⟨l1, l2, l3⟩ := lrun_stall_then_rise (view t) n hp hlen hn hlo hhi hg
  obtain ⟨a1, a2, a3⟩ := run_refines (List.replicate n false) t hw
  obtain ⟨b1, b2, _⟩ := run_refines (List.replicate n false ++ [true]) t hw
  obtain ⟨c1, c2, _⟩ := tick_refines (run t (List.replicate n false)).1 true a3
  have hc : cstr t.morse_buf = (view t).syms := by
    rw [cstr_eq_pending t hw hl]; rfl
  have hgv : (view t).gap = t.gap_ms := rfl
  rw [hgv] at l2 l3
  rw [hc]
  refine ⟨by rw [a2, l1], ?_, by rw [b2, l3]⟩
  rw [c2, a1, l2]

theorem tick_fall_nonempty (s : DecoderState) (hp : s.prev_on = true) :
    0 < (tick s false).1.morse_len := by
  rw [tick_fall s hp]
  simp only [push_symbol]
  split_ifs <;> simp only [MORSE_BUF_SIZE] at * <;> omega

/-- An on run ended by an off run of `k` samples that crosses the stall
threshold, and the rising edge after it. -/
theorem run_fall_stall_then_rise (s : DecoderState) (k : Nat) (hw : WellFormed s)
    (hp : s.prev_on = true) (hk : WORD_GAP_MIN * 2 < SAMPLE_MS * k) :
    0 < (tick s false).1.morse_len ∧
    (run s (List.replicate k false)).2
      = [morse_to_char (cstr (tick s false).1.morse_buf), ' '] ∧
    (tick (run s (List.replicate k false)).1 true).2
      = (if WORD_GAP_MIN ≤ run_ms k then [' '] else []) ∧
    (run s (List.replicate k false ++ [true])).2
      = [morse_to_char (cstr (tick s false).1.morse_buf), ' ']
          ++ (if WORD_GAP_MIN ≤ run_ms k then [' '] else []) := by
  obtain ⟨m, rfl⟩ : ∃ m, k = m + 1 := ⟨k - 1, by
    simp only [WORD_GAP_MIN, UNIT_MS, SAMPLE_MS] at hk; omega⟩
  have hm : 1 ≤ m := by
    simp only [WORD_GAP_MIN, UNIT_MS, SAMPLE_MS] at hk; push_cast at hk; omega
  have hne := tick_fall_nonempty s hp
  have hwt : WellFormed (tick s false).1 := (tick_refines s false hw).2.2
  have hpt : (tick s false).1.prev_on = false := tick_prev_on s false
  have hgt : (tick s false).1.gap_ms = SAMPLE_MS := by rw [tick_fall s hp]
  have hot : (tick s false).2 = [] := by rw [tick_fall s hp]
  have hrm : run_ms (m + 1) = add_samples m SAMPLE_MS := rfl
  obtain ⟨r1, r2, r3⟩ := run_stall_then_rise (tick s false).1 m hwt hpt hne hm
    (by rw [hgt]; decide) (by rw [hgt]; decide) (by
    rw [hgt]
    simp only [WORD_GAP_MIN, UNIT_MS, SAMPLE_MS] at hk ⊢
    push_cast at hk
    omega)
  rw [hgt] at r2 r3
  rw [hrm]
  refine ⟨hne, ?_, ?_, ?_⟩
  · rw [List.replicate_succ, run_cons, hot, List.nil_append]
    exact r1
  · rw [List.replicate_succ, run_cons]
    exact r2
  · rw [List.replicate_succ, List.cons_append, run_cons, hot, List.nil_append]
    exact r3

theorem lrun_leading_silence (k : Nat) :
    lrun linit (List.replicate k false) =
      ({ prev_on := false, dur := add_samples k 0, gap := add_samples k 0, syms := [] }, []) ∧
    (lrun linit (List.replicate k false ++ [true])).2
      = if WORD_GAP_MIN ≤ add_samples k 0 then [' '] else [] := by
  have hrun : lrun linit (List.replicate k false) =
      ({ prev_on := false, dur := add_samples k 0, gap := add_samples k 0, syms := [] }, []) := by
    rw [lrun_off_quiet k linit rfl (Or.inl rfl)]
    rfl
  refine ⟨hrun, ?_⟩
  rw [lrun_append_out, hrun, lrun_cons]
  simp only [lrun, List.append_nil, List.nil_append]
  rw [ltick_rise { prev_on := false, dur := add_samples k 0, gap := add_samples k 0,
                   syms := [] } rfl,
    lrising_empty { prev_on := false, dur := add_samples k 0, gap := add_samples k 0,
                    syms := [] } rfl]

theorem add_samples_zero_eq (k : Nat) : add_samples k 0 = wrap_int (SAMPLE_MS * k) := by
  rw [add_samples_eq k 0 (by decide), zero_add]

/-- The 32-bit value of 214748365 sample periods: the counter has wrapped. -/
theorem wrap_long_run : wrap_int (SAMPLE_MS * (214748365 : Nat)) = -2147483646 := by
  decide

/-! ## A run of spaces longer than the range of `gap_ms` -/

theorem tail_samples_spaces (k m : Nat) (rest : List Char) :
    tail_samples k (List.replicate m ' ' ++ rest)
      = List.replicate (140 * m) false ++ tail_samples k rest := by
  induction m with
  | zero => rfl
  | succ n ih =>
    rw [List.replicate_succ, List.cons_append, tail_samples_space, ih, ← List.append_assoc,
      ← List.replicate_add]
    congr 2
    omega

theorem expected_from_spaces (st : Bool) (j m : Nat) (rest : List Char) :
    expected_from st j (List.replicate m ' ' ++ rest) = expected_from st (j + m) rest := by
  induction m generalizing j with
  | zero => rfl
  | succ n ih =>
    rw [List.replicate_succ, List.cons_append, expected_from_space, ih]
    congr 1
    omega

theorem merge_off_runs (a b c d : Nat) (x y : List Bool) :
    (x ++ List.replicate a false) ++
        (List.replicate b false ++ ((y ++ List.replicate c false) ++ List.replicate d false))
      = (x ++ List.replicate (a + b) false) ++ (y ++ List.replicate (c + d) false) := by
  rw [List.replicate_add, List.replicate_add]
  simp only [List.append_assoc]

/-- The round trip needs a bound on the length of the message: for the
message made of `E`, 1533917 spaces and `E`, the off time between the two
letters is 2147484400 ms, `gap_ms` has wrapped around to a negative value when
the second letter starts, and the decoder prints `"E E "`, one space between
the letters, where `expected_output` has two. -/
theorem round_trip_long_gap :
    (run (init zero_buf)
      (sample_pulses (pulse_train ('E' :: (List.replicate 1533917 ' ' ++ ['E'])))
        ++ List.replicate 1 false)).2 = ['E', ' ', 'E', ' '] ∧
    expected_output ('E' :: (List.replicate 1533917 ' ' ++ ['E']))
      = ['E', ' ', ' ', 'E', ' '] := by
  constructor
  · have e : ∀ msg : List Char,
        sample_pulses (message_pulses msg ++ [(false, 7 * DOT_MS)]) ++ List.replicate 1 false
          = tail_samples 1 msg := fun _ => rfl
    have hE : sample_pulses (symbol_pulses ['.'] ++ [(false, 2 * DOT_MS)])
        = List.replicate 20 true ++ List.replicate 60 false := rfl
    have hk : WORD_GAP_MIN * 2 < (((60 + 140 * 1533917 : Nat) : Nat) : Int) * SAMPLE_MS := by
      decide
    have hw : wrap_int (SAMPLE_MS * ((60 + 140 * 1533917 : Nat) : Int)) = -2147482896 := by
      decide
    have h1 := lrun_stall 20 (60 + 140 * 1533917) (by decide) hk
    rw [run_ms_dot, run_ms_eq (60 + 140 * 1533917) (by decide), hw] at h1
    have hr : lrising { prev_on := false, dur := -2147482896, gap := -2147482896, syms := [] }
        = ({ prev_on := false, dur := -2147482896, gap := -2147482896, syms := [] }, []) := by
      decide
    have ha : after_pulse
        { prev_on := false, dur := -2147482896, gap := -2147482896, syms := [] } 20
        = { prev_on := false, dur := SAMPLE_MS, gap := SAMPLE_MS, syms := ['.'] } := by
      simp only [after_pulse, run_ms_dot, hr]
      decide
    have h2 : (lrun { prev_on := false, dur := -2147482896, gap := -2147482896, syms := [] }
        (List.replicate 20 true ++ List.replicate (200 + 1) false)).2 = ['E', ' '] := by
      rw [lrun_pulse { prev_on := false, dur := -2147482896, gap := -2147482896, syms := [] }
        20 200 rfl (by decide), ha, hr,
        lrun_off_flush 200 { prev_on := false, dur := SAMPLE_MS, gap := SAMPLE_MS, syms := ['.'] }
          rfl (by decide) (by decide) (by decide) (by decide) (by decide)]
      decide
    rw [(run_init_agree zero_buf _).2.1, pulse_train_eq, e,
      tail_samples_letter 1 'E' _ ['.'] (by decide) (by decide), tail_samples_spaces,
      tail_samples_letter 1 'E' [] ['.'] (by decide) (by decide), tail_samples_nil, hE,
      merge_off_runs, lrun_append_out, h1]
    rw [show (60 + (140 + 1) : Nat) = 200 + 1 from rfl, h2]
    decide
  · rw [expected_output, expected_from_letter false 0 'E' _ (by decide), expected_from_spaces]
    decide

/-! ## Claims -/

/-- C1 (as amended). Round trip. For every message made only of letters,
digits and spaces, and short enough that no off time of its pulse train
reaches `INT_MAX` ms (`3 * DOT_MS + 7 * DOT_MS * length ≤ INT_MAX`, which
allows about 1.5 million characters), the ideally sampled pulse train of the
message (one repetition, the gap between messages included), fed to the
decoder from its initial state and followed by at least one further off
sample, makes the decoder print `expected_output msg`: the letters and digits
of the message in order, letters upper-cased, with one space before the first
of them if the message starts with spaces, one space between two of them that
a single space separates, two spaces between two of them that two or more
spaces separate, and one space after the last of them. In particular, for a
non-empty message without leading, trailing or doubled spaces the output is
the upper-cased message followed by one space. -/
theorem C1_round_trip (msg : List Char) (buf0 : Buf) (k : Nat)
    (hv : ∀ c ∈ msg, supported c) (hk : 1 ≤ k)
    (hlen : 3 * (DOT_MS : Int) + 7 * (DOT_MS : Int) * msg.length ≤ INT_MAX) :
    (run (init buf0) (sample_pulses (pulse_train msg) ++ List.replicate k false)).2
      = expected_output msg ∧
    (single_spaced msg = true →
      (run (init buf0) (sample_pulses (pulse_train msg) ++ List.replicate k false)).2
        = msg.map upcase ++ [' ']) := by
  have h := decoded_message msg buf0 k hv hk hlen
  refine ⟨h, ?_⟩
  intro hs
  rw [h, expected_output_single_spaced msg hs]

/-- C1, instance: the message `"Hi 5"` decodes to `"HI 5 "`. -/
theorem C1_round_trip_witness :
    (run (init zero_buf)
      (sample_pulses (pulse_train ['H', 'i', ' ', '5']) ++ List.replicate 1 false)).2
      = ['H', 'I', ' ', '5', ' '] :=
  (C1_round_trip ['H', 'i', ' ', '5'] zero_buf 1 (by decide) (by decide) (by decide)).2
    (by decide)

/-- C1, counterexample to the claim as stated: for the message `"E  E"` (two
spaces) the decoder prints `"E  E "`, with both spaces kept and a trailing
space, not the message with its run of spaces collapsed, `"E E"`. -/
theorem C1_round_trip_counterexample :
    (run (init zero_buf)
      (sample_pulses (pulse_train ['E', ' ', ' ', 'E']) ++ List.replicate 1 false)).2
      = ['E', ' ', ' ', 'E', ' '] ∧
    (run (init zero_buf)
      (sample_pulses (pulse_train ['E', ' ', ' ', 'E']) ++ List.replicate 1 false)).2
      ≠ ['E', ' ', 'E'] := by
  have h := decoded_message ['E', ' ', ' ', 'E'] zero_buf 1 (by decide) (by decide) (by decide)
  have e : expected_output ['E', ' ', ' ', 'E'] = ['E', ' ', ' ', 'E', ' '] := by decide
  rw [e] at h
  refine ⟨h, ?_⟩
  rw [h]
  decide

/-- C2. Gap classification on a rising edge. For every decoder state with
`prev_on = false` and an incoming on sample: (i) a gap in
`[LETTER_GAP_MIN, LETTER_GAP_MAX)` with a non-empty buffer emits exactly the
decoded character and empties the buffer; (ii) a gap of at least
`WORD_GAP_MIN` emits the decoded character when the buffer is non-empty, then
a space, and the buffer is empty afterwards; (iii) otherwise nothing is
emitted and the buffer is unchanged. A gap of `LETTER_GAP_MAX - SAMPLE_MS` is
a letter gap, a gap of exactly `WORD_GAP_MIN` is a word gap, and exactly one
of the three cases applies. -/
theorem C2_gap_classification (s : DecoderState) (hs : s.prev_on = false) :
    (LETTER_GAP_MIN ≤ s.gap_ms ∧ s.gap_ms < LETTER_GAP_MAX ∧ 0 < s.morse_len →
      (tick s true).2 = [morse_to_char (cstr s.morse_buf)] ∧
      (tick s true).1.morse_len = 0 ∧ pending (tick s true).1 = []) ∧
    (WORD_GAP_MIN ≤ s.gap_ms →
      (tick s true).2 =
        (if 0 < s.morse_len then [morse_to_char (cstr s.morse_buf)] else []) ++ [' '] ∧
      (tick s true).1.morse_len = 0 ∧ pending (tick s true).1 = []) ∧
    (s.gap_ms < LETTER_GAP_MIN ∨
        (LETTER_GAP_MIN ≤ s.gap_ms ∧ s.gap_ms < LETTER_GAP_MAX ∧ s.morse_len = 0) →
      (tick s true).2 = [] ∧ (tick s true).1.morse_len = s.morse_len ∧
      (tick s true).1.morse_buf = s.morse_buf) ∧
    (s.gap_ms = LETTER_GAP_MAX - SAMPLE_MS → 0 < s.morse_len →
      (tick s true).2 = [morse_to_char (cstr s.morse_buf)]) ∧
    (s.gap_ms = WORD_GAP_MIN →
      (tick s true).2 =
        (if 0 < s.morse_len then [morse_to_char (cstr s.morse_buf)] else []) ++ [' ']) ∧
    ((LETTER_GAP_MIN ≤ s.gap_ms ∧ s.gap_ms < LETTER_GAP_MAX ∧ 0 < s.morse_len) ∨
      WORD_GAP_MIN ≤ s.gap_ms ∨
      (s.gap_ms < LETTER_GAP_MIN ∨
        (LETTER_GAP_MIN ≤ s.gap_ms ∧ s.gap_ms < LETTER_GAP_MAX ∧ s.morse_len = 0))) ∧
    ¬ ((LETTER_GAP_MIN ≤ s.gap_ms ∧ s.gap_ms < LETTER_GAP_MAX ∧ 0 < s.morse_len) ∧
      WORD_GAP_MIN ≤ s.gap_ms) ∧
    ¬ ((LETTER_GAP_MIN ≤ s.gap_ms ∧ s.gap_ms < LETTER_GAP_MAX ∧ 0 < s.morse_len) ∧
      (s.gap_ms < LETTER_GAP_MIN ∨
        (LETTER_GAP_MIN ≤ s.gap_ms ∧ s.gap_ms < LETTER_GAP_MAX ∧ s.morse_len = 0))) ∧
    ¬ (WORD_GAP_MIN ≤ s.gap_ms ∧
      (s.gap_ms < LETTER_GAP_MIN ∨
        (LETTER_GAP_MIN ≤ s.gap_ms ∧ s.gap_ms < LETTER_GAP_MAX ∧ s.morse_len = 0))) := by
  rw [tick_rise s hs]
  have i1 : (LETTER_GAP_MIN ≤ s.gap_ms ∧ s.gap_ms < LETTER_GAP_MAX ∧ 0 < s.morse_len →
      (rising_edge s).2 = [morse_to_char (cstr s.morse_buf)] ∧
      (rising_edge s).1.morse_len = 0) := by
    rintro ⟨h1, h2, h3⟩
    simp [rising_edge, h1, h2, h3]
  have i2 : (WORD_GAP_MIN ≤ s.gap_ms →
      (rising_edge s).2 =
        (if 0 < s.morse_len then [morse_to_char (cstr s.morse_buf)] else []) ++ [' '] ∧
      (rising_edge s).1.morse_len = 0) := by
    intro h1
    have h2 : ¬ s.gap_ms < LETTER_GAP_MAX := by
      simp only [WORD_GAP_MIN, LETTER_GAP_MAX, UNIT_MS] at h1 ⊢; omega
    by_cases h3 : 0 < s.morse_len
    · simp [rising_edge, h1, h2, h3]
    · have h4 : s.morse_len = 0 := by omega
      simp [rising_edge, h1, h2, h4]
  have i3 : (s.gap_ms < LETTER_GAP_MIN ∨
        (LETTER_GAP_MIN ≤ s.gap_ms ∧ s.gap_ms < LETTER_GAP_MAX ∧ s.morse_len = 0) →
      (rising_edge s).2 = [] ∧ (rising_edge s).1 = s) := by
    rintro (h1 | ⟨h1, h2, h3⟩)
    · have h2 : ¬ LETTER_GAP_MIN ≤ s.gap_ms := by omega
      have h3 : ¬ WORD_GAP_MIN ≤ s.gap_ms := by
        simp only [WORD_GAP_MIN, LETTER_GAP_MIN, UNIT_MS] at h1 ⊢; omega
      simp [rising_edge, h2, h3]
    · simp [rising_edge, h1, h2, h3]
  have e1 : LETTER_GAP_MAX = WORD_GAP_MIN := rfl
  have e2 : LETTER_GAP_MIN ≤ LETTER_GAP_MAX - SAMPLE_MS := by decide
  have e3 : LETTER_GAP_MAX - SAMPLE_MS < LETTER_GAP_MAX := by decide
  have e4 : LETTER_GAP_MIN ≤ LETTER_GAP_MAX := by decide
  refine ⟨?_, ?_, ?_, ?_, ?_, ?_, ?_, ?_, ?_⟩
  · intro h
    obtain ⟨a, b⟩ := i1 h
    exact ⟨a, b, by simp [pending, b]⟩
  · intro h
    obtain ⟨a, b⟩ := i2 h
    exact ⟨a, b, by simp [pending, b]⟩
  · intro h
    obtain ⟨a, b⟩ := i3 h
    exact ⟨a, by simp [b], by simp [b]⟩
  · intro h hl
    exact (i1 ⟨by rw [h]; exact e2, by rw [h]; exact e3, hl⟩).1
  · intro h
    exact (i2 (by rw [h])).1
  · rw [e1] at *
    omega
  · rw [e1]; omega
  · omega
  · rw [e1] at *; omega

/-- C2, instance: a decoder state with a 900 ms gap and the buffer `".-"`,
at a rising edge. -/
theorem C2_gap_classification_witness :
    (tick { prev_on := false, state_duration_ms := 900, gap_ms := 900,
            morse_buf := (zero_buf.set 0 '.').set 1 '-', morse_len := 2 } true).2 = ['A'] :=
  ((C2_gap_classification
    { prev_on := false, state_duration_ms := 900, gap_ms := 900,
      morse_buf := (zero_buf.set 0 '.').set 1 '-', morse_len := 2 } rfl).1
    ⟨by decide, by decide, by decide⟩).1

/-- C3 (as amended). Dot/dash classification. For every `n ≥ 1`, an on run of
exactly `n` on samples that starts in a state with `prev_on = false` and is
ended by an off sample appends, when the buffer is not full, `'.'` if the
`int` value of the run's duration, `n * SAMPLE_MS` wrapped to 32 bits, is
below `DOT_MAX`, and `'-'` otherwise, with a NUL after it (and leaves a full
buffer as it is). For every run with `n * SAMPLE_MS ≤ INT_MAX` this is: a dot
if `n * SAMPLE_MS < DOT_MAX`, a dash if `n * SAMPLE_MS ≥ DOT_MAX`; a run of
`DOT_MAX - SAMPLE_MS` ms is a dot and a run of exactly `DOT_MAX` ms is a dash.
The buffer the symbol is appended to is the buffer after the first on sample,
on which the rising edge may have flushed it. -/
theorem C3_dot_dash_classification (s : DecoderState) (n : Nat)
    (hs : s.prev_on = false) (hn : 1 ≤ n) :
    ((tick s true).1.morse_len < MORSE_BUF_SIZE - 1 →
      (wrap_int ((n : Int) * SAMPLE_MS) < DOT_MAX →
        pending (run s (List.replicate n true ++ [false])).1
          = pending (tick s true).1 ++ ['.']) ∧
      (DOT_MAX ≤ wrap_int ((n : Int) * SAMPLE_MS) →
        pending (run s (List.replicate n true ++ [false])).1
          = pending (tick s true).1 ++ ['-']) ∧
      ((n : Int) * SAMPLE_MS ≤ INT_MAX → (n : Int) * SAMPLE_MS < DOT_MAX →
        pending (run s (List.replicate n true ++ [false])).1
          = pending (tick s true).1 ++ ['.']) ∧
      ((n : Int) * SAMPLE_MS ≤ INT_MAX → DOT_MAX ≤ (n : Int) * SAMPLE_MS →
        pending (run s (List.replicate n true ++ [false])).1
          = pending (tick s true).1 ++ ['-']) ∧
      ((n : Int) * SAMPLE_MS = DOT_MAX - SAMPLE_MS →
        pending (run s (List.replicate n true ++ [false])).1
          = pending (tick s true).1 ++ ['.']) ∧
      ((n : Int) * SAMPLE_MS = DOT_MAX →
        pending (run s (List.replicate n true ++ [false])).1
          = pending (tick s true).1 ++ ['-']) ∧
      (run s (List.replicate n true ++ [false])).1.morse_len = (tick s true).1.morse_len + 1 ∧
      (run s (List.replicate n true ++ [false])).1.morse_buf.val.get?
          ((tick s true).1.morse_len + 1) = some NUL) ∧
    (¬ (tick s true).1.morse_len < MORSE_BUF_SIZE - 1 →
      (run s (List.replicate n true ++ [false])).1.morse_buf = (tick s true).1.morse_buf ∧
      (run s (List.replicate n true ++ [false])).1.morse_len = (tick s true).1.morse_len) := by
  rw [run_on_pulse s n hs hn]
  have hrm : run_ms n = wrap_int ((n : Int) * SAMPLE_MS) := by
    rw [run_ms_eq n hn, mul_comm]
  have hsmall : (n : Int) * SAMPLE_MS ≤ INT_MAX →
      wrap_int ((n : Int) * SAMPLE_MS) = (n : Int) * SAMPLE_MS := by
    intro h
    apply wrap_int_of_range _ _ h
    simp only [SAMPLE_MS, INT_MIN]
    have : (0 : Int) ≤ (n : Int) := Int.natCast_nonneg n
    omega
  rw [hrm]
  have hpend : ∀ (t : DecoderState) (b : Bool) (d g : Int),
      pending { t with prev_on := b, state_duration_ms := d, gap_ms := g } = pending t :=
    fun _ _ _ _ => rfl
  constructor
  · intro hlt
    have hdot : wrap_int ((n : Int) * SAMPLE_MS) < DOT_MAX →
        pending { (push_symbol (tick s true).1
            (if wrap_int ((n : Int) * SAMPLE_MS) < DOT_MAX then '.' else '-')) with
          prev_on := false, state_duration_ms := SAMPLE_MS, gap_ms := SAMPLE_MS }
          = pending (tick s true).1 ++ ['.'] := by
      intro h
      rw [hpend, if_pos h, pending_push _ _ hlt]
    have hdash : DOT_MAX ≤ wrap_int ((n : Int) * SAMPLE_MS) →
        pending { (push_symbol (tick s true).1
            (if wrap_int ((n : Int) * SAMPLE_MS) < DOT_MAX then '.' else '-')) with
          prev_on := false, state_duration_ms := SAMPLE_MS, gap_ms := SAMPLE_MS }
          = pending (tick s true).1 ++ ['-'] := by
      intro h
      rw [hpend, if_neg (not_lt.mpr h), pending_push _ _ hlt]
    refine ⟨hdot, hdash, ?_, ?_, ?_, ?_, ?_, ?_⟩
    · intro hb h
      exact hdot (by rw [hsmall hb]; exact h)
    · intro hb h
      exact hdash (by rw [hsmall hb]; exact h)
    · intro h
      exact hdot (by rw [hsmall (by rw [h]; decide), h]; decide)
    · intro h
      exact hdash (by rw [hsmall (by rw [h]; decide), h])
    · simp [push_symbol, hlt]
    · have hb := (tick s true).1.morse_buf.property
      simp only [MORSE_BUF_SIZE] at hlt hb
      simp only [push_symbol, MORSE_BUF_SIZE, hlt, if_true, Buf.set]
      exact get_set_set _ _ _ _ (by omega)
  · intro hfull
    simp [push_symbol, hfull]

/-- C3, instance: from the initial state, 39 on samples (390 ms) and an off
sample leave one dot in the buffer. -/
theorem C3_dot_dash_classification_witness :
    pending (run (init zero_buf) (List.replicate 39 true ++ [false])).1
      = pending (tick (init zero_buf) true).1 ++ ['.'] :=
  ((C3_dot_dash_classification (init zero_buf) 39 rfl (by decide)).1 (by decide)).2.2.1
    (by decide) (by decide)

/-- C3, counterexample to the claim as stated: an on run of 214748365 samples
lasts 2147483650 ms, which is at least `DOT_MAX`, but `state_duration_ms` has
wrapped around to -2147483646 when the run ends, and the decoder buffers a
dot, not a dash. -/
theorem C3_dot_dash_classification_counterexample :
    DOT_MAX ≤ ((214748365 : Nat) : Int) * SAMPLE_MS ∧
    pending (run (init zero_buf) (List.replicate 214748365 true ++ [false])).1 = ['.'] ∧
    pending (run (init zero_buf) (List.replicate 214748365 true ++ [false])).1
      ≠ pending (tick (init zero_buf) true).1 ++ ['-'] := by
  have h : pending (run (init zero_buf) (List.replicate 214748365 true ++ [false])).1
      = ['.'] := by
    rw [run_on_pulse (init zero_buf) 214748365 rfl (by decide),
      run_ms_eq 214748365 (by decide), wrap_long_run]
    decide
  refine ⟨by decide, h, ?_⟩
  rw [h]
  decide

/-- C4 (as amended). Stall flush. From the initial state, an on run of
`n ≥ 1` samples (one symbol) followed by `k` off samples lasting longer than
`2 * WORD_GAP_MIN` ms makes the decoder print the decoded character followed
by one space, once: the output is exactly those two characters however large
`k` is, the buffer is empty afterwards, and any further off samples print
nothing and leave the buffer empty. The character is `'E'` when the `int`
duration of the on run is below `DOT_MAX` and `'T'` otherwise; for an on run
with `n * SAMPLE_MS ≤ INT_MAX` that duration is `n * SAMPLE_MS`. -/
theorem C4_stall_flush (buf0 : Buf) (n k j : Nat) (hn : 1 ≤ n)
    (hk : WORD_GAP_MIN * 2 < (k : Int) * SAMPLE_MS) :
    (run (init buf0) (List.replicate n true ++ List.replicate k false)).2
      = [if wrap_int ((n : Int) * SAMPLE_MS) < DOT_MAX then 'E' else 'T', ' '] ∧
    ((n : Int) * SAMPLE_MS ≤ INT_MAX →
      (run (init buf0) (List.replicate n true ++ List.replicate k false)).2
        = [if (n : Int) * SAMPLE_MS < DOT_MAX then 'E' else 'T', ' ']) ∧
    (run (init buf0) (List.replicate n true ++ List.replicate k false)).1.morse_len = 0 ∧
    (run (run (init buf0) (List.replicate n true ++ List.replicate k false)).1
      (List.replicate j false)).2 = [] ∧
    (run (run (init buf0) (List.replicate n true ++ List.replicate k false)).1
      (List.replicate j false)).1.morse_len = 0 := by
  obtain ⟨a1, a2, a3⟩ := run_init_agree buf0 (List.replicate n true ++ List.replicate k false)
  rw [lrun_stall n k hn hk] at a1 a2
  obtain ⟨b1, b2, b3⟩ := run_refines (List.replicate j false) _ a3
  rw [a1, lrun_off_quiet j
    { prev_on := false, dur := run_ms k, gap := run_ms k, syms := [] }
    rfl (Or.inl rfl)] at b1 b2
  have hrm : run_ms n = wrap_int ((n : Int) * SAMPLE_MS) := by
    rw [run_ms_eq n hn, mul_comm]
  rw [hrm] at a2
  refine ⟨a2, ?_, ?_, b2, ?_⟩
  · intro hb
    have hsmall : wrap_int ((n : Int) * SAMPLE_MS) = (n : Int) * SAMPLE_MS := by
      apply wrap_int_of_range _ _ hb
      simp only [SAMPLE_MS, INT_MIN]
      have : (0 : Int) ≤ (n : Int) := Int.natCast_nonneg n
      omega
    rw [a2, hsmall]
  · rw [morse_len_of_view _ a3, a1]; rfl
  · rw [morse_len_of_view _ b3, b1]; rfl

/-- C4, instance: a 200 ms on run and 2010 ms of silence. -/
theorem C4_stall_flush_witness :
    (run (init zero_buf) (List.replicate 20 true ++ List.replicate 201 false)).2 = ['E', ' '] :=
  (C4_stall_flush zero_buf 20 201 0 (by decide) (by decide)).2.1 (by decide)

/-- C4, counterexample to the claim as stated: after a 200 ms on run and
2010 ms of silence the decoder has printed two characters, the letter and a
trailing space, not a single character. -/
theorem C4_stall_flush_counterexample :
    (run (init zero_buf) (List.replicate 20 true ++ List.replicate 201 false)).2 = ['E', ' '] ∧
    ¬ ∃ c : Char,
      (run (init zero_buf) (List.replicate 20 true ++ List.replicate 201 false)).2 = [c] := by
  have h : (run (init zero_buf) (List.replicate 20 true ++ List.replicate 201 false)).2
      = ['E', ' '] := by
    rw [(run_init_agree zero_buf _).2.1, lrun_stall 20 201 (by decide) (by decide), run_ms_dot]
    rfl
  refine ⟨h, ?_⟩
  rintro ⟨c, hc⟩
  rw [h] at hc
  simp at hc

/-- C5. Decoding a symbol buffer is total and exact: `morse_to_char` returns,
for every string, the letter of the table entry whose code equals the string,
and `'?'` when no code equals it (the empty string, a proper prefix of codes
such as `"----"` and an extension of a code such as `"......"` included); so
its result is always a table letter or `'?'`, and every tick prints nothing,
or the one character decoded from the buffer, possibly followed by a space,
or a lone space. -/
theorem C5_morse_to_char_exact (code : List Char) :
    (∀ e ∈ morse_table, e.morse = code → morse_to_char code = e.letter) ∧
    ((∀ e ∈ morse_table, e.morse ≠ code) → morse_to_char code = '?') ∧
    (morse_to_char code = '?' ∨ ∃ e ∈ morse_table, e.morse = code ∧ morse_to_char code = e.letter) ∧
    morse_to_char [] = '?' ∧
    morse_to_char ['-', '-', '-', '-'] = '?' ∧
    morse_to_char ['.', '.', '.', '.', '.', '.'] = '?' ∧
    (∀ (s : DecoderState) (b : Bool),
      (tick s b).2 = [] ∨ (tick s b).2 = [morse_to_char (cstr s.morse_buf)] ∨
      (tick s b).2 = [morse_to_char (cstr s.morse_buf), ' '] ∨ (tick s b).2 = [' ']) := by
  have hall : ∀ e ∈ morse_table, morse_to_char e.morse = e.letter := by decide
  refine ⟨?_, ?_, ?_, by decide, by decide, by decide, ?_⟩
  · intro e he hc
    rw [← hc]
    exact hall e he
  · exact morse_lookup_none code morse_table
  · exact morse_lookup_range code morse_table
  · intro s b
    cases hp : s.prev_on <;> cases b
    · rw [tick_off_same s hp]
      split_ifs <;> simp
    · rw [tick_rise s hp]
      simp only [rising_edge]
      split_ifs <;> simp
    · rw [tick_fall s hp]
      simp
    · rw [tick_on_same s hp]
      simp

/-- C5, instance: the buffer `"-.-."` decodes to the letter of its table
entry. -/
theorem C5_morse_to_char_exact_witness : morse_to_char ['-', '.', '-', '.'] = 'C' :=
  (C5_morse_to_char_exact ['-', '.', '-', '.']).1 ⟨['-', '.', '-', '.'], 'C'⟩ (by decide) rfl

/-- C6. The encoder's table and the decoder's table are the same bijection
between the 36 characters A-Z, 0-9 and their codes: they list the same
(character, code) pairs; every such character has a code and decodes back to
itself; every code of the decoder's table decodes to a character whose code
it is; and no two characters share a code. -/
theorem C6_tables_bijection :
    MORSE_TABLE.map (fun e => (e.ch, e.morse)) = morse_table.map (fun e => (e.letter, e.morse)) ∧
    MORSE_TABLE.length = 36 ∧
    (∀ c : Char, ('A' ≤ c ∧ c ≤ 'Z') ∨ ('0' ≤ c ∧ c ≤ '9') →
      ∃ m, char_to_morse c = some m ∧ morse_to_char m = c) ∧
    (∀ e ∈ morse_table, char_to_morse (morse_to_char e.morse) = some e.morse) ∧
    (∀ (c d : Char) (m : List Char),
      char_to_morse c = some m → char_to_morse d = some m → c = d) := by
  refine ⟨by decide, by decide, ?_, by decide, ?_⟩
  · intro c hc
    have hm : c ∈ MORSE_TABLE.map (fun e => e.ch) := by
      rcases hc with h | h
      · exact upper_mem_table c h
      · exact digit_mem_table c h
    obtain ⟨e, he, hec⟩ := List.mem_map.mp hm
    obtain ⟨h1, h2⟩ := table_roundtrip e he
    have hec' : e.ch = c := hec
    rw [hec'] at h1 h2
    exact ⟨e.morse, h1, h2⟩
  · intro c d m hc hd
    exact table_codes_distinct _ (char_lookup_mem c _ m hc) _ (char_lookup_mem d _ m hd) rfl

/-- C6, instance: the character `'Q'`. -/
theorem C6_tables_bijection_witness :
    ∃ m, char_to_morse 'Q' = some m ∧ morse_to_char m = 'Q' :=
  C6_tables_bijection.2.2.1 'Q' (Or.inl (by decide))

/-- C7 (as amended). End-to-end example. From the initial state, the samples
for on 1 unit, off 1 unit, on 1 unit, off 3 units, on 3 units, off 6 units
make the decoder print `"I"` and leave the dash in the symbol buffer; the
next on sample (a rising edge after the 6-unit gap) prints `"T "`, so that
the output is then `"IT "` and the buffer is empty. -/
theorem C7_end_to_end_example (buf0 : Buf) :
    (run (init buf0) example_samples).2 = ['I'] ∧
    pending (run (init buf0) example_samples).1 = ['-'] ∧
    (run (init buf0) example_samples).1.morse_len = 1 ∧
    (run (init buf0) (example_samples ++ [true])).2 = ['I', 'T', ' '] ∧
    (run (init buf0) (example_samples ++ [true])).1.morse_len = 0 := by
  obtain ⟨a1, a2, a3⟩ := run_init_agree buf0 example_samples
  obtain ⟨b1, b2, b3⟩ := run_init_agree buf0 (example_samples ++ [true])
  rw [lrun_example] at a1 a2
  rw [lrun_example_then_on] at b1 b2
  refine ⟨a2, ?_, ?_, b2, ?_⟩
  · rw [← view_syms, a1]
  · rw [morse_len_of_view _ a3, a1]; rfl
  · rw [morse_len_of_view _ b3, b1]; rfl

/-- C7, counterexample to the claim as stated: on the example's samples the
decoder prints `"I"`, not `"IT "`, and its symbol buffer is not empty. -/
theorem C7_end_to_end_example_counterexample :
    (run (init zero_buf) example_samples).2 ≠ ['I', 'T', ' '] ∧
    (run (init zero_buf) example_samples).1.morse_len ≠ 0 := by
  obtain ⟨a1, a2, a3⟩ := run_init_agree zero_buf example_samples
  rw [lrun_example] at a1 a2
  constructor
  · rw [a2]; decide
  · rw [morse_len_of_view _ a3, a1]; decide

/-- C8. Buffer overflow. For every decoder state whose buffer already holds
15 symbols, a falling edge leaves the buffer bytes and the length unchanged
and prints nothing, while `gap_ms` is still reset (it is `SAMPLE_MS`, the off
sample just seen, after the tick). Off samples that do not trigger the stall
flush keep that buffer, and the next flush of it, by a letter gap, a word gap
or the stall flush, prints exactly one decoded character for it (followed by a
space in the last two cases) and empties it; for a well-formed buffer that
character is `'?'`. The stall flush fires when `gap_ms`, after the `int`
addition of `SAMPLE_MS`, exceeds `2 * WORD_GAP_MIN`; for `gap_ms` up to
`INT_MAX - SAMPLE_MS` that sum is `gap_ms + SAMPLE_MS`. -/
theorem C8_buffer_overflow (s : DecoderState) (hlen : s.morse_len = MORSE_BUF_SIZE - 1) :
    (s.prev_on = true →
      (tick s false).1.morse_buf = s.morse_buf ∧ (tick s false).1.morse_len = s.morse_len ∧
      (tick s false).1.gap_ms = SAMPLE_MS ∧ (tick s false).2 = []) ∧
    (s.prev_on = false →
      (¬ WORD_GAP_MIN * 2 < int_add s.gap_ms SAMPLE_MS →
        (tick s false).1.morse_buf = s.morse_buf ∧ (tick s false).1.morse_len = s.morse_len ∧
        (tick s false).2 = []) ∧
      (LETTER_GAP_MIN ≤ s.gap_ms ∧ s.gap_ms < LETTER_GAP_MAX →
        (tick s true).2 = [morse_to_char (cstr s.morse_buf)] ∧ (tick s true).1.morse_len = 0) ∧
      (WORD_GAP_MIN ≤ s.gap_ms →
        (tick s true).2 = [morse_to_char (cstr s.morse_buf), ' '] ∧
        (tick s true).1.morse_len = 0) ∧
      (WORD_GAP_MIN * 2 < int_add s.gap_ms SAMPLE_MS →
        (tick s false).2 = [morse_to_char (cstr s.morse_buf), ' '] ∧
        (tick s false).1.morse_len = 0)) ∧
    (INT_MIN ≤ s.gap_ms → s.gap_ms + SAMPLE_MS ≤ INT_MAX →
      int_add s.gap_ms SAMPLE_MS = s.gap_ms + SAMPLE_MS) ∧
    (WellFormed s → morse_to_char (cstr s.morse_buf) = '?') := by
  have hpos : s.morse_len > 0 := by rw [hlen]; decide
  have hfull : ¬ s.morse_len < MORSE_BUF_SIZE - 1 := by rw [hlen]; exact lt_irrefl _
  refine ⟨?_, ?_, int_add_small s.gap_ms, ?_⟩
  · intro hp
    rw [tick_fall s hp]
    simp [push_symbol, hfull]
  · intro hp
    refine ⟨?_, ?_, ?_, ?_⟩
    · intro hq
      rw [tick_off_same s hp, if_neg (fun hc => hq hc.1)]
      exact ⟨rfl, rfl, rfl⟩
    · rintro ⟨h1, h2⟩
      rw [tick_rise s hp]
      simp [rising_edge, h1, h2, hpos]
    · intro h1
      have h2 : ¬ s.gap_ms < LETTER_GAP_MAX := by
        simp only [WORD_GAP_MIN, LETTER_GAP_MAX, UNIT_MS] at h1 ⊢; omega
      rw [tick_rise s hp]
      simp [rising_edge, h1, h2, hpos]
    · intro hq
      rw [tick_off_same s hp, if_pos ⟨hq, hpos⟩]
      exact ⟨rfl, rfl⟩
  · intro hw
    rw [cstr_eq_pending s hw hpos]
    apply morse_lookup_none
    intro e he heq
    have hl : e.morse.length = MORSE_BUF_SIZE - 1 := by
      rw [heq, pending_length s hw.1, hlen]
    have hall : ∀ x ∈ morse_table, x.morse.length ≠ MORSE_BUF_SIZE - 1 := by decide
    exact hall e he hl

/-- C8, instance: a full buffer of fifteen dots at a falling edge. -/
theorem C8_buffer_overflow_witness :
    (tick { prev_on := true, state_duration_ms := 200, gap_ms := 0,
            morse_buf := ⟨List.replicate 15 '.' ++ [NUL], rfl⟩, morse_len := 15 } false).1.morse_len
      = 15 :=
  ((C8_buffer_overflow
    { prev_on := true, state_duration_ms := 200, gap_ms := 0,
      morse_buf := ⟨List.replicate 15 '.' ++ [NUL], rfl⟩, morse_len := 15 } rfl).1 rfl).2.1

/-- C9. Per-character pulse train. For every table character `c` with code
`m`, `send_char c` appends to the trace, for each symbol of `m` in order, on
for 1 unit (dot) or 3 units (dash) followed by off for 1 unit, and after the
last symbol off for 2 more units, and leaves the pin off. The train therefore
ends with an on pulse followed by exactly 1 + 2 = 3 units of off time, and
its total duration is `(2 * dots + 4 * dashes + 2) * DOT_MS`. -/
theorem C9_send_char_pulses (c : Char) (m : List Char) (h : Led)
    (hc : char_to_morse c = some m) :
    (send_char c h).trace = h.trace ++ (symbol_pulses m ++ [(false, 2 * DOT_MS)]) ∧
    (send_char c h).level = false ∧
    m ≠ [] ∧ (∀ x ∈ m, x = '.' ∨ x = '-') ∧
    duration (symbol_pulses m ++ [(false, 2 * DOT_MS)])
      = (2 * m.count '.' + 4 * m.count '-' + 2) * DOT_MS ∧
    (symbol_pulses m ++ [(false, 2 * DOT_MS)]).drop (2 * m.length - 1)
      = [(false, DOT_MS), (false, 2 * DOT_MS)] ∧
    ((symbol_pulses m).get? (2 * m.length - 2)).map Prod.fst = some true := by
  obtain ⟨s1, s2, _, s4, s5, s6, s7, s8⟩ := table_codes_shape _ (char_lookup_mem c _ m hc)
  have hsp : c ≠ ' ' := s1
  have e : send_char c h =
      { level := false, trace := h.trace ++ (symbol_pulses m ++ [(false, 2 * DOT_MS)]) } := by
    have s5' : symbol_pulses m ≠ [] := s5
    simp [send_char, hsp, hc, send_symbols_eq, delay, s5']
  rw [e]
  exact ⟨rfl, rfl, s2, s4, s6, s7, s8⟩

/-- C9, instance: the character `'A'` (dot, dash) sent from the start state. -/
theorem C9_send_char_pulses_witness :
    (send_char 'A' led_start).trace =
      led_start.trace ++ (symbol_pulses ['.', '-'] ++ [(false, 2 * DOT_MS)]) :=
  (C9_send_char_pulses 'A' ['.', '-'] led_start (by decide)).1

/-- C10, the code at the input `"E E"`: the pulse train is on 200 ms, then
off for 200 + 400 + 1400 ms, then on 200 ms, then off; the off time between
the two on pulses is 2000 ms, which is 10 dot-units and not 7. -/
theorem C10_word_gap_is_ten_units :
    pulse_train ['E', ' ', 'E'] =
      [(true, 200), (false, 200), (false, 400), (false, 1400),
       (true, 200), (false, 200), (false, 400), (false, 1400)] ∧
    merge_pulses (pulse_train ['E', ' ', 'E']) =
      [(true, 200), (false, 2000), (true, 200), (false, 2000)] ∧
    2000 = 10 * DOT_MS ∧ 2000 ≠ 7 * DOT_MS := by
  decide

/-- C11. Unknown-character skipping. For every message, the pulse train the
encoder emits equals the pulse train it emits for the message with every
unsupported character (not a space and, after the upper-casing of a-z, not in
the table) removed; `send_char` leaves the pin and the trace as they are for
such a character, so it contributes no pulse and no gap. -/
theorem C11_unknown_characters_skipped (msg : List Char) :
    pulse_train msg = pulse_train (msg.filter encodable) ∧
    (∀ h : Led, send_message msg h = send_message (msg.filter encodable) h) ∧
    (∀ (c : Char) (h : Led), encodable c = false → send_char (upcase c) h = h) := by
  refine ⟨?_, fun h => (send_message_filter msg h).symm, send_char_skipped⟩
  simp only [pulse_train, send_repetition, send_message_filter]

/-- C11, instance: the message `"a!b"`, whose `'!'` is not in the table. -/
theorem C11_unknown_characters_skipped_witness :
    send_char (upcase '!') led_start = led_start ∧
    pulse_train ['a', '!', 'b'] = pulse_train (['a', '!', 'b'].filter encodable) :=
  ⟨(C11_unknown_characters_skipped ['a', '!', 'b']).2.2 '!' led_start (by decide),
   (C11_unknown_characters_skipped ['a', '!', 'b']).1⟩

/-- C12. Case-insensitivity of the encoder. For every message, the pulse train
emitted for the message equals the pulse train emitted for the message with
every lowercase letter a-z replaced by its uppercase letter. -/
theorem C12_case_insensitive (msg : List Char) :
    pulse_train msg = pulse_train (msg.map upcase) ∧
    (∀ c : Char, 'a' ≤ c ∧ c ≤ 'z' → 'A' ≤ upcase c ∧ upcase c ≤ 'Z') ∧
    (∀ c : Char, ¬ ('a' ≤ c ∧ c ≤ 'z') → upcase c = c) := by
  refine ⟨?_, fun c h => (upcase_lower c h).1, upcase_not_lower⟩
  simp only [pulse_train, send_repetition, send_message_upcase]

/-- C12, instance: `"sos"` and `"SOS"` give the same pulse train. -/
theorem C12_case_insensitive_witness :
    pulse_train ['s', 'o', 's'] = pulse_train ['S', 'O', 'S'] :=
  (C12_case_insensitive ['s', 'o', 's']).1

/-- C13. Output alphabet. For every finite sequence of samples fed to the
decoder from its initial state, every character it prints is one of A-Z, 0-9,
`'?'` or the space, and so never a lowercase letter; the same holds for every
sequence of reads of the sampling loop, failed ones included. -/
theorem C13_output_alphabet (buf0 : Buf) (samples : List Bool) (c : Char)
    (hc : c ∈ (run (init buf0) samples).2) :
    output_char c ∧ ¬ ('a' ≤ c ∧ c ≤ 'z') ∧
    (∀ (threshold : Int) (reads : List (Option Int)) (d : Char),
      d ∈ (loop_run threshold (init buf0) reads).2 → output_char d) := by
  have h := run_output_chars samples (init buf0) c hc
  refine ⟨h, output_char_not_lower c h, ?_⟩
  intro threshold reads d hd
  rw [loop_run_eq_run] at hd
  exact run_output_chars _ _ d hd

/-- C13, instance: the `'E'` printed after a 200 ms on run and 2010 ms of
silence. -/
theorem C13_output_alphabet_witness : output_char 'E' :=
  (C13_output_alphabet zero_buf (List.replicate 20 true ++ List.replicate 201 false) 'E'
    (by rw [(run_init_agree zero_buf _).2.1, lrun_stall 20 201 (by decide) (by decide),
          run_ms_dot]
        decide)).1

/-- C14. A failed read is a no-op tick. For every decoder state, a loop
iteration whose read fails prints nothing and leaves `prev_on`,
`state_duration_ms`, `gap_ms` and the symbol buffer exactly as they were; so a
failed read anywhere in a sequence of reads changes neither the final state
nor the output. -/
theorem C14_failed_read_noop (threshold : Int) (s : DecoderState) :
    (loop_iter threshold s none).2 = [] ∧
    (loop_iter threshold s none).1.prev_on = s.prev_on ∧
    (loop_iter threshold s none).1.state_duration_ms = s.state_duration_ms ∧
    (loop_iter threshold s none).1.gap_ms = s.gap_ms ∧
    (loop_iter threshold s none).1.morse_buf = s.morse_buf ∧
    (loop_iter threshold s none).1.morse_len = s.morse_len ∧
    (∀ before after : List (Option Int),
      loop_run threshold s (before ++ none :: after)
        = loop_run threshold s (before ++ after)) := by
  refine ⟨rfl, rfl, rfl, rfl, rfl, rfl, ?_⟩
  intro before after
  rw [loop_run_eq_run, loop_run_eq_run, samples_of_reads_append, samples_of_reads_append]
  rfl

/-- C15. Encoder argument validation. `main` returns a non-zero status and
emits no pulse whenever fewer than two arguments are supplied (`argc < 3`) or
the parsed repetition count is `≤ 0` (and also when the hardware set-up
fails); with at least two arguments, a positive repetition count and a
successful set-up it emits the pulse train of the message once per repetition
and returns 0. -/
theorem C15_argument_validation (argv : List (List Char)) (atoi : List Char → Int)
    (setup_result : Int) :
    (argv.length < 3 →
      (main argv atoi setup_result).1 ≠ 0 ∧ (main argv atoi setup_result).2 = []) ∧
    (atoi (argv.getD 1 []) ≤ 0 →
      (main argv atoi setup_result).1 ≠ 0 ∧ (main argv atoi setup_result).2 = []) ∧
    (setup_result = -1 →
      (main argv atoi setup_result).1 ≠ 0 ∧ (main argv atoi setup_result).2 = []) ∧
    (3 ≤ argv.length → 0 < atoi (argv.getD 1 []) → setup_result ≠ -1 →
      (main argv atoi setup_result).1 = 0 ∧
      (main argv atoi setup_result).2
        = repeat_train (atoi (argv.getD 1 [])).toNat (pulse_train (argv.getD 2 []))) := by
  have fail1 : argv.length < 3 → main argv atoi setup_result = (1, []) := by
    intro h
    simp only [main, h, if_true]
  have fail2 : atoi (argv.getD 1 []) ≤ 0 → main argv atoi setup_result = (1, []) := by
    intro h
    by_cases h1 : argv.length < 3
    · exact fail1 h1
    · simp only [main, h1, h, if_true, if_false]
  have fail3 : setup_result = -1 → main argv atoi setup_result = (1, []) := by
    intro h
    by_cases h1 : argv.length < 3
    · exact fail1 h1
    · by_cases h2 : atoi (argv.getD 1 []) ≤ 0
      · exact fail2 h2
      · simp only [main, h1, h2, h, if_true, if_false]
  have one_ne : ((1, []) : Int × List (Bool × Nat)).1 ≠ 0 := by decide
  refine ⟨?_, ?_, ?_, ?_⟩
  · intro h
    rw [fail1 h]
    exact ⟨one_ne, rfl⟩
  · intro h
    rw [fail2 h]
    exact ⟨one_ne, rfl⟩
  · intro h
    rw [fail3 h]
    exact ⟨one_ne, rfl⟩
  · intro h1 h2 h3
    have h1' : ¬ argv.length < 3 := by omega
    have h2' : ¬ atoi (argv.getD 1 []) ≤ 0 := by omega
    have e : main argv atoi setup_result =
        (0, (led_off (send_repetitions (atoi (argv.getD 1 [])).toNat (argv.getD 2 [])
              (led_off { level := false, trace := [] }))).trace) := by
      simp only [main, h1', h2', h3, if_false]
    have hs : led_off { level := false, trace := [] } = led_start := rfl
    rw [e, hs, send_repetitions_eq _ _ led_start rfl]
    exact ⟨rfl, by simp [led_off, led_start]⟩

/-- C15, instance: `send 2 "E"` with a working set-up, the count parsed as
2. -/
theorem C15_argument_validation_witness :
    (main [['s', 'e', 'n', 'd'], ['2'], ['E']] (fun _ => 2) 0).1 = 0 ∧
    (main [['s', 'e', 'n', 'd'], ['2'], ['E']] (fun _ => 2) 0).2
      = repeat_train 2 (pulse_train ['E']) :=
  (C15_argument_validation [['s', 'e', 'n', 'd'], ['2'], ['E']] (fun _ => 2) 0).2.2.2
    (by decide) (by decide) (by decide)

/-- C16 (as amended). Duration bookkeeping of the decoder tick. For every
state and sample: (i) if the sample differs from `prev_on`,
`state_duration_ms` is `SAMPLE_MS` after the tick, and otherwise it is
increased by the `int` addition of `SAMPLE_MS`, which is exactly
`+ SAMPLE_MS` as long as the sum does not exceed `INT_MAX` and wraps around
beyond; (ii) a tick whose sample is on leaves `gap_ms` as it is, and a tick
that continues an off run increases it in the same way; (iii) on the tick on
which an on run ends `gap_ms` is reset and the off sample of that tick is
counted, so that `gap_ms` is `SAMPLE_MS` after the tick. -/
theorem C16_duration_bookkeeping (s : DecoderState) (sample : Bool) :
    (sample ≠ s.prev_on → (tick s sample).1.state_duration_ms = SAMPLE_MS) ∧
    (sample = s.prev_on →
      (tick s sample).1.state_duration_ms = int_add s.state_duration_ms SAMPLE_MS) ∧
    (sample = s.prev_on → INT_MIN ≤ s.state_duration_ms →
      s.state_duration_ms + SAMPLE_MS ≤ INT_MAX →
      (tick s sample).1.state_duration_ms = s.state_duration_ms + SAMPLE_MS) ∧
    (sample = true → (tick s sample).1.gap_ms = s.gap_ms) ∧
    (sample = false → s.prev_on = false →
      (tick s sample).1.gap_ms = int_add s.gap_ms SAMPLE_MS) ∧
    (sample = false → s.prev_on = false → INT_MIN ≤ s.gap_ms →
      s.gap_ms + SAMPLE_MS ≤ INT_MAX →
      (tick s sample).1.gap_ms = s.gap_ms + SAMPLE_MS) ∧
    (sample = false → s.prev_on = true → (tick s sample).1.gap_ms = SAMPLE_MS) := by
  have hdur : sample = s.prev_on →
      (tick s sample).1.state_duration_ms = int_add s.state_duration_ms SAMPLE_MS := by
    intro h
    cases hp : s.prev_on
    · rw [hp] at h; subst h
      rw [tick_off_same s hp]
      split_ifs <;> rfl
    · rw [hp] at h; subst h
      rw [tick_on_same s hp]
  have hgap : sample = false → s.prev_on = false →
      (tick s sample).1.gap_ms = int_add s.gap_ms SAMPLE_MS := by
    intro h hp
    subst h
    rw [tick_off_same s hp]
    split_ifs <;> rfl
  refine ⟨?_, hdur, ?_, ?_, hgap, ?_, ?_⟩
  · intro h
    cases hp : s.prev_on
    · have hs : sample = true := by
        cases sample
        · exact absurd hp.symm h
        · rfl
      subst hs
      rw [tick_rise s hp]
    · have hs : sample = false := by
        cases sample
        · rfl
        · exact absurd hp.symm h
      subst hs
      rw [tick_fall s hp]
  · intro h h1 h2
    rw [hdur h, int_add_small _ h1 h2]
  · intro h
    subst h
    cases hp : s.prev_on
    · rw [tick_rise s hp]
      simp only [rising_edge]
      split_ifs <;> rfl
    · rw [tick_on_same s hp]
  · intro h hp h1 h2
    rw [hgap h hp, int_add_small _ h1 h2]
  · intro h hp
    subst h
    rw [tick_fall s hp]

/-- C16, instance: the off sample that ends a 200 ms on run. -/
theorem C16_duration_bookkeeping_witness :
    (tick { prev_on := true, state_duration_ms := 200, gap_ms := 0,
            morse_buf := zero_buf, morse_len := 0 } false).1.gap_ms = SAMPLE_MS :=
  (C16_duration_bookkeeping
    { prev_on := true, state_duration_ms := 200, gap_ms := 0,
      morse_buf := zero_buf, morse_len := 0 } false).2.2.2.2.2.2 rfl rfl

/-- C16, counterexample to the claim as stated. Part (iii): after the off
sample that ends a 200 ms on run, `gap_ms` is 10, not 0. Part (i): an on
sample that continues an on run of 2147483640 ms leaves `state_duration_ms`
at -2147483646, not at 2147483650. -/
theorem C16_duration_bookkeeping_counterexample :
    (tick { prev_on := true, state_duration_ms := 200, gap_ms := 0,
            morse_buf := zero_buf, morse_len := 0 } false).1.gap_ms = 10 ∧
    (tick { prev_on := true, state_duration_ms := 200, gap_ms := 0,
            morse_buf := zero_buf, morse_len := 0 } false).1.gap_ms ≠ 0 ∧
    (tick { prev_on := true, state_duration_ms := 2147483640, gap_ms := 0,
            morse_buf := zero_buf, morse_len := 0 } true).1.state_duration_ms = -2147483646 ∧
    (tick { prev_on := true, state_duration_ms := 2147483640, gap_ms := 0,
            morse_buf := zero_buf, morse_len := 0 } true).1.state_duration_ms
      ≠ 2147483640 + SAMPLE_MS := by
  decide

/-- C17. Symbol-buffer well-formedness. In every decoder state reachable from
the initial state, `morse_len ≤ 15`, and whenever `morse_len > 0` the first
`morse_len` bytes of `morse_buf` are each `'.'` or `'-'` and
`morse_buf[morse_len]` is NUL, so that the C string `morse_to_char` reads is
exactly the buffered symbols; a symbol is only appended when `morse_len < 15`,
so both bytes written lie inside the 16-byte buffer. The same holds for the
states reached through any sequence of reads, failed ones included. -/
theorem C17_buffer_well_formed (buf0 : Buf) (samples : List Bool) :
    (run (init buf0) samples).1.morse_len ≤ MORSE_BUF_SIZE - 1 ∧
    (0 < (run (init buf0) samples).1.morse_len →
      (∀ i, i < (run (init buf0) samples).1.morse_len →
        (run (init buf0) samples).1.morse_buf.val.get? i = some '.' ∨
        (run (init buf0) samples).1.morse_buf.val.get? i = some '-') ∧
      (run (init buf0) samples).1.morse_buf.val.get? (run (init buf0) samples).1.morse_len
        = some NUL ∧
      cstr (run (init buf0) samples).1.morse_buf = pending (run (init buf0) samples).1) ∧
    ((run (init buf0) samples).1.morse_len < MORSE_BUF_SIZE - 1 →
      (run (init buf0) samples).1.morse_len + 1
        < (run (init buf0) samples).1.morse_buf.val.length) ∧
    (∀ (threshold : Int) (reads : List (Option Int)),
      WellFormed (loop_run threshold (init buf0) reads).1) := by
  have hw := run_wellFormed samples (init buf0) (wellFormed_init buf0)
  obtain ⟨a, b, c⟩ := wellFormed_spelled _ hw
  refine ⟨a, b, c, ?_⟩
  intro threshold reads
  rw [loop_run_eq_run]
  exact run_wellFormed _ _ (wellFormed_init buf0)

/-- C17, instance: after a dot and a dash the buffer holds two symbols and a
NUL. -/
theorem C17_buffer_well_formed_witness :
    (run (init zero_buf) [true, false, true, false]).1.morse_buf.val.get?
      (run (init zero_buf) [true, false, true, false]).1.morse_len = some NUL :=
  ((C17_buffer_well_formed zero_buf [true, false, true, false]).2.1 (by decide)).2.1

/-- C18 (as amended). In every decoder state reachable from the initial state
in which `prev_on` is false, `gap_ms` equals `state_duration_ms`. Consequently
the gap a rising edge classifies is the `int` counter of the samples of the
off run that just ended, the first off sample included: after an off run of
`k ≥ 1` samples that follows an on run, and after an off run of `k` samples
from the initial state, `gap_ms` is `k * SAMPLE_MS` wrapped to 32 bits, which
is exactly `k * SAMPLE_MS` for every off run with `k * SAMPLE_MS ≤ INT_MAX`. -/
theorem C18_gap_equals_off_run (buf0 : Buf) (samples : List Bool) :
    ((run (init buf0) samples).1.prev_on = false →
      (run (init buf0) samples).1.gap_ms = (run (init buf0) samples).1.state_duration_ms) ∧
    (∀ (s : DecoderState) (k : Nat), s.prev_on = true → 1 ≤ k →
      (run s (List.replicate k false)).1.prev_on = false ∧
      (run s (List.replicate k false)).1.gap_ms = wrap_int (SAMPLE_MS * k) ∧
      (SAMPLE_MS * (k : Int) ≤ INT_MAX →
        (run s (List.replicate k false)).1.gap_ms = SAMPLE_MS * k)) ∧
    (∀ k : Nat,
      (run (init buf0) (List.replicate k false)).1.gap_ms = wrap_int (SAMPLE_MS * k) ∧
      (SAMPLE_MS * (k : Int) ≤ INT_MAX →
        (run (init buf0) (List.replicate k false)).1.gap_ms = SAMPLE_MS * k)) := by
  have hsmall : ∀ k : Nat, SAMPLE_MS * (k : Int) ≤ INT_MAX →
      wrap_int (SAMPLE_MS * (k : Int)) = SAMPLE_MS * k := by
    intro k h
    apply wrap_int_of_range _ _ h
    simp only [SAMPLE_MS, INT_MIN]
    have : (0 : Int) ≤ (k : Int) := Int.natCast_nonneg k
    omega
  refine ⟨run_gap_eq_dur samples (init buf0) (fun _ => rfl), ?_, ?_⟩
  · intro s k hp hk
    obtain ⟨a, b, _⟩ := run_off_after_on k s hp hk
    rw [run_ms_eq k hk] at b
    exact ⟨a, b, fun h => by rw [b, hsmall k h]⟩
  · intro k
    have b : (run (init buf0) (List.replicate k false)).1.gap_ms = add_samples k 0 :=
      (run_off_gap k (init buf0) rfl).2.1
    rw [add_samples_zero_eq] at b
    exact ⟨b, fun h => by rw [b, hsmall k h]⟩

/-- C18, instance: two on samples followed by three off samples. -/
theorem C18_gap_equals_off_run_witness :
    (run (init zero_buf) [true, true, false, false, false]).1.gap_ms
      = (run (init zero_buf) [true, true, false, false, false]).1.state_duration_ms :=
  (C18_gap_equals_off_run zero_buf [true, true, false, false, false]).1 (by decide)

/-- C18, counterexample to the claim as stated: after 214748365 off samples
from the initial state `prev_on` is false and `gap_ms` is -2147483646, not the
number of samples of the off run times `SAMPLE_MS`, 2147483650. -/
theorem C18_gap_equals_off_run_counterexample :
    (run (init zero_buf) (List.replicate 214748365 false)).1.prev_on = false ∧
    (run (init zero_buf) (List.replicate 214748365 false)).1.gap_ms = -2147483646 ∧
    (run (init zero_buf) (List.replicate 214748365 false)).1.gap_ms
      ≠ SAMPLE_MS * ((214748365 : Nat) : Int) := by
  obtain ⟨a, b, _⟩ := run_off_gap 214748365 (init zero_buf) rfl
  have b2 : (run (init zero_buf) (List.replicate 214748365 false)).1.gap_ms
      = add_samples 214748365 0 := b
  rw [add_samples_zero_eq, wrap_long_run] at b2
  refine ⟨a, b2, ?_⟩
  rw [b2]
  decide

/-- C19 (as amended). Stall flush followed by a rising edge doubles the space.
For every state reachable from the initial state in which an on run is in
progress, if the off run that follows lasts more than
`2 * WORD_GAP_MIN / SAMPLE_MS` samples and is then ended by an on sample, the
buffer is non-empty after the first off sample and the decoder prints, over
the off run, the character decoded from it and one space (the stall flush);
the rising edge prints a second space (the word-gap branch) when `gap_ms`,
which is `k * SAMPLE_MS` wrapped to 32 bits, is at least `WORD_GAP_MIN`, and so
for every off run with `k * SAMPLE_MS ≤ INT_MAX`: three characters in all. The
same holds from a reachable state inside an off run with a non-empty buffer,
once the remaining off samples carry `gap_ms` past `2 * WORD_GAP_MIN` and not
past `INT_MAX`. -/
theorem C19_stall_flush_then_rising_edge (buf0 : Buf) (before : List Bool) :
    (∀ k : Nat, (run (init buf0) before).1.prev_on = true →
      WORD_GAP_MIN * 2 < SAMPLE_MS * k →
      0 < (tick (run (init buf0) before).1 false).1.morse_len ∧
      (run (run (init buf0) before).1 (List.replicate k false)).2
        = [morse_to_char (cstr (tick (run (init buf0) before).1 false).1.morse_buf), ' '] ∧
      (tick (run (run (init buf0) before).1 (List.replicate k false)).1 true).2
        = (if WORD_GAP_MIN ≤ wrap_int (SAMPLE_MS * k) then [' '] else []) ∧
      (SAMPLE_MS * (k : Int) ≤ INT_MAX →
        (tick (run (run (init buf0) before).1 (List.replicate k false)).1 true).2 = [' '] ∧
        (run (run (init buf0) before).1 (List.replicate k false ++ [true])).2
          = [morse_to_char (cstr (tick (run (init buf0) before).1 false).1.morse_buf),
              ' ', ' '])) ∧
    (∀ n : Nat, (run (init buf0) before).1.prev_on = false →
      0 < (run (init buf0) before).1.morse_len → 1 ≤ n →
      INT_MIN ≤ (run (init buf0) before).1.gap_ms →
      WORD_GAP_MIN * 2 < (run (init buf0) before).1.gap_ms + SAMPLE_MS * n →
      (run (init buf0) before).1.gap_ms + SAMPLE_MS * n ≤ INT_MAX →
      (run (run (init buf0) before).1 (List.replicate n false)).2
        = [morse_to_char (cstr (run (init buf0) before).1.morse_buf), ' '] ∧
      (tick (run (run (init buf0) before).1 (List.replicate n false)).1 true).2 = [' '] ∧
      (run (run (init buf0) before).1 (List.replicate n false ++ [true])).2
        = [morse_to_char (cstr (run (init buf0) before).1.morse_buf), ' ', ' ']) := by
  have hw := run_wellFormed before (init buf0) (wellFormed_init buf0)
  constructor
  · intro k hp hk
    have hk1 : 1 ≤ k := by
      simp only [WORD_GAP_MIN, UNIT_MS, SAMPLE_MS] at hk; omega
    obtain ⟨r0, r1, r2, r3⟩ := run_fall_stall_then_rise _ k hw hp hk
    rw [run_ms_eq k hk1] at r2 r3
    refine ⟨r0, r1, r2, ?_⟩
    intro hb
    have hsmall : wrap_int (SAMPLE_MS * (k : Int)) = SAMPLE_MS * k := by
      apply wrap_int_of_range _ _ hb
      simp only [SAMPLE_MS, INT_MIN]
      have : (0 : Int) ≤ (k : Int) := Int.natCast_nonneg k
      omega
    have hge : WORD_GAP_MIN ≤ wrap_int (SAMPLE_MS * (k : Int)) := by
      rw [hsmall]
      simp only [WORD_GAP_MIN, UNIT_MS] at hk ⊢
      omega
    rw [if_pos hge] at r2 r3
    exact ⟨r2, r3⟩
  · intro n hp hl hn hlo hg hhi
    have hn0 : (1 : Int) ≤ (n : Int) := by exact_mod_cast hn
    have hhi1 : (run (init buf0) before).1.gap_ms + SAMPLE_MS ≤ INT_MAX := by
      simp only [SAMPLE_MS] at hhi ⊢
      omega
    obtain ⟨r1, r2, r3⟩ := run_stall_then_rise _ n hw hp hl hn hlo hhi1 hg
    have hadd := add_samples_small n _ hlo hhi
    have hge : WORD_GAP_MIN ≤ add_samples n (run (init buf0) before).1.gap_ms := by
      rw [hadd]
      simp only [WORD_GAP_MIN, UNIT_MS] at hg ⊢
      omega
    rw [if_pos hge] at r2 r3
    exact ⟨r1, r2, r3⟩

/-- C19, instance: a dot, then 2010 ms of silence, then an on sample print
the decoded character and two spaces. -/
theorem C19_stall_flush_then_rising_edge_witness :
    (run (run (init zero_buf) [true]).1 (List.replicate 201 false ++ [true])).2
      = [morse_to_char (cstr (tick (run (init zero_buf) [true]).1 false).1.morse_buf),
          ' ', ' '] :=
  (((C19_stall_flush_then_rising_edge zero_buf [true]).1 201
    (by decide) (by decide)).2.2.2 (by decide)).2

/-- C19, counterexample to the claim as stated: after a dot, an off run of
214748365 samples (more than `2 * WORD_GAP_MIN / SAMPLE_MS`) and an on sample,
the decoder has printed `"E "` only: `gap_ms` has wrapped around to a negative
value and the rising edge prints no second space. -/
theorem C19_stall_flush_then_rising_edge_counterexample :
    (run (init zero_buf) [true]).1.prev_on = true ∧
    WORD_GAP_MIN * 2 < SAMPLE_MS * ((214748365 : Nat) : Int) ∧
    (run (run (init zero_buf) [true]).1 (List.replicate 214748365 false ++ [true])).2
      = ['E', ' '] := by
  have hw := run_wellFormed [true] (init zero_buf) (wellFormed_init zero_buf)
  have hp : (run (init zero_buf) [true]).1.prev_on = true := by decide
  have hk : WORD_GAP_MIN * 2 < SAMPLE_MS * ((214748365 : Nat) : Int) := by decide
  obtain ⟨_, _, _, r3⟩ := run_fall_stall_then_rise _ 214748365 hw hp hk
  rw [run_ms_eq 214748365 (by decide), wrap_long_run] at r3
  refine ⟨hp, hk, ?_⟩
  rw [r3]
  decide

/-- C20 (as amended). Leading silence. From the initial state, `k` off samples
followed by one on sample print nothing when `k * SAMPLE_MS < WORD_GAP_MIN`,
and exactly one space, with no character before it, when
`WORD_GAP_MIN ≤ k * SAMPLE_MS ≤ INT_MAX`; in general the space is printed
exactly when `gap_ms`, which is `k * SAMPLE_MS` wrapped to 32 bits, is at least
`WORD_GAP_MIN`. The silence itself prints nothing (the stall flush never
fires, the buffer being empty). -/
theorem C20_leading_silence (buf0 : Buf) (k : Nat) :
    ((k : Int) * SAMPLE_MS < WORD_GAP_MIN →
      (run (init buf0) (List.replicate k false ++ [true])).2 = []) ∧
    (WORD_GAP_MIN ≤ (k : Int) * SAMPLE_MS → (k : Int) * SAMPLE_MS ≤ INT_MAX →
      (run (init buf0) (List.replicate k false ++ [true])).2 = [' ']) ∧
    (run (init buf0) (List.replicate k false ++ [true])).2
      = (if WORD_GAP_MIN ≤ wrap_int ((k : Int) * SAMPLE_MS) then [' '] else []) ∧
    (run (init buf0) (List.replicate k false)).2 = [] ∧
    (run (init buf0) (List.replicate k false)).1.morse_len = 0 := by
  obtain ⟨l1, l2⟩ := lrun_leading_silence k
  obtain ⟨a1, a2, a3⟩ := run_init_agree buf0 (List.replicate k false)
  have b2 := (run_init_agree buf0 (List.replicate k false ++ [true])).2.1
  rw [l1] at a1 a2
  rw [l2, add_samples_zero_eq, mul_comm] at b2
  have hsmall : (k : Int) * SAMPLE_MS ≤ INT_MAX →
      wrap_int ((k : Int) * SAMPLE_MS) = (k : Int) * SAMPLE_MS := by
    intro h
    apply wrap_int_of_range _ _ h
    simp only [SAMPLE_MS, INT_MIN]
    have : (0 : Int) ≤ (k : Int) := Int.natCast_nonneg k
    omega
  refine ⟨?_, ?_, b2, a2, ?_⟩
  · intro h
    have hb : (k : Int) * SAMPLE_MS ≤ INT_MAX := by
      simp only [WORD_GAP_MIN, UNIT_MS, INT_MAX] at h ⊢
      omega
    rw [b2, hsmall hb, if_neg (not_le.mpr h)]
  · intro h hb
    rw [b2, hsmall hb, if_pos h]
  · rw [morse_len_of_view _ a3, a1]; rfl

/-- C20, instance: 1000 ms of leading silence, then an on sample. -/
theorem C20_leading_silence_witness :
    (run (init zero_buf) (List.replicate 100 false ++ [true])).2 = [' '] :=
  (C20_leading_silence zero_buf 100).2.1 (by decide) (by decide)

/-- C20, counterexample to the claim as stated: 214748365 off samples last
2147483650 ms, at least `WORD_GAP_MIN`, but `gap_ms` has wrapped around to a
negative value and the on sample that follows prints nothing. -/
theorem C20_leading_silence_counterexample :
    WORD_GAP_MIN ≤ ((214748365 : Nat) : Int) * SAMPLE_MS ∧
    (run (init zero_buf) (List.replicate 214748365 false ++ [true])).2 = [] := by
  refine ⟨by decide, ?_⟩
  rw [(run_init_agree zero_buf _).2.1, (lrun_leading_silence 214748365).2,
    add_samples_zero_eq, wrap_long_run]
  decide

end Morse
